import Mathlib

/-!
# Virtual memory manager: shallow embedding and verification

The first part embeds the variant with FIFO page replacement
(`src/VM/task/vm.c`, namespace `Task`), the second part the variant without
replacement (`src/VM/example/vm.c`, namespace `Example`).

The C program keeps its whole simulation state in global variables and mutates
them from `main`'s request loop.  The embedding below passes that state
explicitly (`VMState`) and turns every C function into a Lean function on it.

Modelling conventions

* C `int` values (page numbers, frame numbers, counters, table entries and the
  `-1` sentinels) are `Int`; the bitwise `&` of the address decoder works on
  the 32-bit two's complement pattern `a % 2^32`.  The statistics counters are
  not wrapped: a signed overflow would need more than `2^31` requests.
* C arrays are lists of their declared length; a `for` loop over the whole
  array is a structural recursion over the list.
* An access whose effect the model cannot determine (an array index outside
  the array in a write or in a read that steers control flow) makes the
  enclosing function return `none`.  The theorems prove that this never
  happens in a reachable state.
* `physical_memory` is a map from the byte offset inside the `malloc`ed block
  to the byte stored there; `none` is an indeterminate byte (never written, or
  outside the block).  The byte printed by `main` is therefore an
  `Option Int`.
* The backing store file is an external collaborator: `BackingStore` carries
  the file bytes together with the outcome of `fseek` and the number of items
  `fread` is able to deliver at each offset.
-/

namespace Task

/-! ## Constants (`#define`s) -/

def PAGE_NUMBER_MASK : Nat := 0x0000FF00
def OFFSET_MASK : Nat := 0x000000FF
def PAGE_SIZE : Int := 256
def FRAME_SIZE : Int := 256
def NUMBER_OF_FRAMES : Int := 64
def PAGE_TABLE_SIZE : Int := 256
def TLB_SIZE : Int := 16

/-! ## Data model -/

/-- An entry in the tlb (`struct tlb_entry`). -/
structure tlb_entry where
  page_number : Int
  frame_number : Int
  valid : Int
deriving DecidableEq, Repr

/-- The backing store file as seen through `fseek` and `fread`.
`byte i` is the `i`-th byte of the file (as a `signed char`), `size` its
length, `fseek_ok off` tells whether `fseek(_, off, SEEK_SET)` returns `0`,
and `fread_items off` bounds the number of items an `fread` at `off` delivers
(an I/O error makes it smaller than requested). -/
structure BackingStore where
  byte : Nat → Int
  size : Nat
  fseek_ok : Int → Bool
  fread_items : Int → Nat

/-- The global variables of the program.  `assigned` is a history variable
that is not in the source: the frames returned so far by
`get_next_free_frame`, oldest first.  No function reads it. -/
structure VMState where
  physical_memory : Int → Option Int
  page_table : List Int
  page_faults : Int
  tlb_hits : Int
  free_frame_list : List Int
  number_of_free_frames : Int
  next_fifo_frame : Int
  next_free_tlb_index : Int
  tlb : List tlb_entry
  temp_frame : List Int
  assigned : List Int

/-- Read `a[i]` for a C `int` index; `none` outside the array. -/
def readArr {α : Type} (l : List α) (i : Int) : Option α :=
  if i < 0 then none else l[i.toNat]?

/-- Write `a[i] = v` for a C `int` index; `none` outside the array. -/
def writeArr {α : Type} (l : List α) (i : Int) (v : α) : Option (List α) :=
  if 0 ≤ i ∧ i.toNat < l.length then some (l.set i.toNat v) else none

/-! ## Address decoding -/

/-- The 32-bit two's complement bit pattern of a C `int`. -/
def bits32 (a : Int) : Nat := (a % 2 ^ 32).toNat

/-- Returns the page number from the logical address:
`(logical_address & PAGE_NUMBER_MASK) >> 8`.  The masks are positive, so
the result of `&` is the non-negative number with the common bits. -/
def get_page_number (logical_address : Int) : Int :=
  (((bits32 logical_address &&& PAGE_NUMBER_MASK) >>> 8 : Nat) : Int)

/-- Returns the offset from the logical address:
`logical_address & OFFSET_MASK`. -/
def get_offset (logical_address : Int) : Int :=
  ((bits32 logical_address &&& OFFSET_MASK : Nat) : Int)

/-! ## Initialisation -/

/-- The page table after `init_page_table`: every entry is `-1`. -/
def init_page_table (s : VMState) : VMState :=
  { s with page_table := List.replicate PAGE_TABLE_SIZE.toNat (-1) }

/-- Successful branch of `init_physical_memory` (`malloc` returned a block):
all frames free, FIFO cursor `0`, page table cleared.  The fresh block has
indeterminate contents. -/
def init_physical_memory (s : VMState) : VMState :=
  init_page_table
    { s with
      physical_memory := fun _ => none
      free_frame_list := List.replicate NUMBER_OF_FRAMES.toNat 1
      number_of_free_frames := NUMBER_OF_FRAMES
      next_fifo_frame := 0 }

/-- Flush the tlb by invalidating all entries. -/
def flush_tlb (s : VMState) : VMState :=
  { s with
    tlb := s.tlb.map (fun _ => ⟨-1, -1, -1⟩)
    next_free_tlb_index := 0 }

/-- The zero-initialised globals at program start. -/
def boot : VMState where
  physical_memory := fun _ => none
  page_table := List.replicate PAGE_TABLE_SIZE.toNat 0
  page_faults := 0
  tlb_hits := 0
  free_frame_list := List.replicate NUMBER_OF_FRAMES.toNat 0
  number_of_free_frames := 0
  next_fifo_frame := 0
  next_free_tlb_index := 0
  tlb := List.replicate TLB_SIZE.toNat ⟨0, 0, 0⟩
  temp_frame := List.replicate FRAME_SIZE.toNat 0
  assigned := []

/-- The state in which `main` enters its request loop:
`init_physical_memory(); init_physical_memory(); flush_tlb();`. -/
def initial : VMState :=
  flush_tlb (init_physical_memory (init_physical_memory boot))

/-! ## TLB -/

/-- Body of the `for` loop of `invalidate_tlb`: clear the first entry whose
`frame_number` equals `frame_number`, then `break`.  Returns the new array and
`rv`. -/
def invalidate_tlb_loop : List tlb_entry → Int → List tlb_entry × Int
  | [], _ => ([], 0)
  | e :: es, frame_number =>
    if e.frame_number = frame_number then
      (⟨-1, -1, -1⟩ :: es, 1)
    else
      let r := invalidate_tlb_loop es frame_number
      (e :: r.1, r.2)

/-- Invalidates the tlb with the specified frame number.
Returns `0` if no tlb entry, `1` if a tlb entry was invalidated. -/
def invalidate_tlb (s : VMState) (frame_number : Int) : Int × VMState :=
  let r := invalidate_tlb_loop s.tlb frame_number
  (r.2, { s with tlb := r.1 })

/-- Body of the `for` loop of `invalidate_page_table`: reset the first entry
equal to `frame` to `-1`, then `break`. -/
def invalidate_page_table_loop : List Int → Int → List Int × Int
  | [], _ => ([], -1)
  | x :: xs, frame =>
    if x = frame then
      (-1 :: xs, 1)
    else
      let r := invalidate_page_table_loop xs frame
      (x :: r.1, r.2)

/-- Invalidates the page table with the specified frame number.
Returns `-1` if there is no mapping, `1` if a mapping was removed. -/
def invalidate_page_table (s : VMState) (frame : Int) : Int × VMState :=
  let r := invalidate_page_table_loop s.page_table frame
  (r.2, { s with page_table := r.1 })

/-- Body of the `for` loop of `check_tlb`: the `frame_number` of the first
entry with the page number and `valid == 1`; `none` when the loop ends without
a `break`. -/
def check_tlb_loop : List tlb_entry → Int → Option Int
  | [], _ => none
  | e :: es, page_number =>
    if e.page_number = page_number ∧ e.valid = 1 then
      some e.frame_number
    else
      check_tlb_loop es page_number

/-- Checks if the page number is present in the tlb.  Returns `-1` on a tlb
miss and the frame number on a hit, counting the hit in `tlb_hits`. -/
def check_tlb (s : VMState) (page_number : Int) : Int × VMState :=
  match check_tlb_loop s.tlb page_number with
  | some frame_number => (frame_number, { s with tlb_hits := s.tlb_hits + 1 })
  | none => (-1, s)

/-- Updates the tlb so that it contains a mapping of the page number to the
frame number (simple FIFO updating algorithm). -/
def update_tlb (s : VMState) (page_number frame_number : Int) : Option VMState :=
  match writeArr s.tlb s.next_free_tlb_index ⟨page_number, frame_number, 1⟩ with
  | none => none
  | some t =>
    some { s with
      tlb := t
      next_free_tlb_index := Int.tmod (s.next_free_tlb_index + 1) TLB_SIZE }

/-! ## Frame allocation and replacement -/

/-- Page replacement algorithm, a simple FIFO algorithm. -/
def FIFO_page_replacement (s : VMState) : Int × VMState :=
  let s1 := (invalidate_tlb s s.next_fifo_frame).2
  let s2 := (invalidate_page_table s1 s1.next_fifo_frame).2
  let next_free_frame := s2.next_fifo_frame
  (next_free_frame,
    { s2 with next_fifo_frame := Int.tmod (s2.next_fifo_frame + 1) NUMBER_OF_FRAMES })

/-- The search `while (free_frame_list[i] == -1) i++;` started at index `i`
of the remaining array; `none` when it runs off the end of the array. -/
def scan_free : List Int → Nat → Option Nat
  | [], _ => none
  | x :: xs, i => if x = -1 then scan_free xs (i + 1) else some i

/-- Returns the index of the next free page frame (built with `FIFO`
defined). -/
def get_next_free_frame (s : VMState) : Option (Int × VMState) :=
  if s.number_of_free_frames > 0 then
    match scan_free s.free_frame_list 0 with
    | none => none
    | some i =>
      some ((i : Int),
        { s with
          free_frame_list := s.free_frame_list.set i (-1)
          number_of_free_frames := s.number_of_free_frames - 1
          assigned := s.assigned ++ [(i : Int)] })
  else
    let r := FIFO_page_replacement s
    some (r.1, { r.2 with assigned := r.2.assigned ++ [r.1] })

/-! ## Backing store and page-fault service -/

/-- The items an `fread(temp_frame, 1, FRAME_SIZE, backing_store)` delivers
when the file position is `off`. -/
def fread (bs : BackingStore) (off : Int) : List Int :=
  (List.range (min FRAME_SIZE.toNat (min (bs.fread_items off) (bs.size - off.toNat)))).map
    (fun i => bs.byte (off.toNat + i))

/-- The call `memcpy(physical_memory + frame_number * FRAME_SIZE, temp_frame,
FRAME_SIZE)`; `none` when the destination is not a frame of the block. -/
def memcpy_frame (s : VMState) (frame_number : Int) : Option VMState :=
  if 0 ≤ frame_number ∧ frame_number < NUMBER_OF_FRAMES then
    some { s with
      physical_memory := fun i =>
        if frame_number * FRAME_SIZE ≤ i ∧ i < frame_number * FRAME_SIZE + FRAME_SIZE then
          s.temp_frame[(i - frame_number * FRAME_SIZE).toNat]?
        else s.physical_memory i }
  else none

/-- Checks if the page number is present in the page table and services the
page fault when it is not.  Returns the frame number, or `-1` after a backing
store error. -/
def check_page_table (bs : BackingStore) (s : VMState) (page_number : Int) :
    Option (Int × VMState) :=
  match readArr s.page_table page_number with
  | none => none
  | some frame_number =>
    if frame_number = -1 then
      let s1 := { s with page_faults := s.page_faults + 1 }
      if bs.fseek_ok (page_number * PAGE_SIZE) = false then
        some (-1, s1)
      else
        let got := fread bs (page_number * PAGE_SIZE)
        let s2 := { s1 with temp_frame := got ++ s1.temp_frame.drop got.length }
        if got.length = 0 then
          some (-1, s2)
        else
          match get_next_free_frame s2 with
          | none => none
          | some (frame_number, s3) =>
            match writeArr s3.page_table page_number frame_number with
            | none => none
            | some pt =>
              match memcpy_frame { s3 with page_table := pt } frame_number with
              | none => none
              | some s4 =>
                match update_tlb s4 page_number frame_number with
                | none => none
                | some s5 => some (frame_number, s5)
    else
      some (frame_number, s)

/-! ## The request loop of `main` -/

/-- One iteration of the `while` loop of `main` for the logical address read
from the input: the byte handed to `printf` and the new state. -/
def translate (bs : BackingStore) (s : VMState) (logical_address : Int) :
    Option (Option Int × VMState) :=
  let page_number := get_page_number logical_address
  let offset := get_offset logical_address
  let r := check_tlb s page_number
  let r2 := if r.1 = -1 then check_page_table bs r.2 page_number else some r
  match r2 with
  | none => none
  | some (frame_number, s2) =>
    some (s2.physical_memory (frame_number * FRAME_SIZE + offset), s2)

/-- The `while` loop of `main` over the addresses of the input file, from
state `s`: the printed bytes in order and the final state. -/
def run (bs : BackingStore) : VMState → List Int → Option (List (Option Int) × VMState)
  | s, [] => some ([], s)
  | s, a :: rest =>
    match translate bs s a with
    | none => none
    | some (v, s1) =>
      match run bs s1 rest with
      | none => none
      | some (vs, s2) => some (v :: vs, s2)

/-! ## Specification vocabulary -/

/-- A state is reachable when the request loop can arrive at it from the
initial state; every request may meet a different backing-store behaviour. -/
inductive Reachable : VMState → Prop
  | init : Reachable initial
  | step {s s1 : VMState} {v : Option Int} (bs : BackingStore) (a : Int) :
      Reachable s → translate bs s a = some (v, s1) → Reachable s1

/-- The state after the request loop has consumed `reqs` from the initial
state (the initial state itself if the loop were undefined). -/
def after (bs : BackingStore) (reqs : List Int) : VMState :=
  match run bs initial reqs with
  | some r => r.2
  | none => initial

/-- A backing store of 65536 bytes whose seeks and reads all succeed. -/
def Readable (bs : BackingStore) : Prop :=
  bs.size = 65536 ∧ (∀ off, bs.fseek_ok off = true) ∧ (∀ off, 256 ≤ bs.fread_items off)

/-- The frame that `get_next_free_frame` hands out in a state with the
allocation history `assigned`: frames are used in the order `0, 1, ..., 63`
and then reclaimed in the same cyclic order. -/
def next_frame (s : VMState) : Int := ((s.assigned.length % 64 : Nat) : Int)

/-- Effect of reclaiming frame `f` on a page table entry. -/
def clear_frame (f : Int) (x : Int) : Int := if x = f then -1 else x

/-- Effect of reclaiming frame `f` on a tlb entry. -/
def clear_entry (f : Int) (e : tlb_entry) : tlb_entry :=
  if e.frame_number = f then ⟨-1, -1, -1⟩ else e

/-- Closed form of the state left by `get_next_free_frame` (used only in
states that satisfy `Inv`). -/
def alloc_state (s : VMState) : VMState :=
  { s with
    page_table := s.page_table.map (clear_frame (next_frame s))
    tlb := s.tlb.map (clear_entry (next_frame s))
    free_frame_list :=
      if s.assigned.length < 64 then s.free_frame_list.set s.assigned.length (-1)
      else s.free_frame_list
    number_of_free_frames := ((64 - (s.assigned.length + 1) : Nat) : Int)
    next_fifo_frame :=
      if s.assigned.length + 1 < 64 then 0 else (((s.assigned.length + 1) % 64 : Nat) : Int)
    assigned := s.assigned ++ [next_frame s] }

/-- The state in which the page-fault branch of `check_page_table` calls
`get_next_free_frame`: the fault is counted and `fread` has filled
`temp_frame`. -/
def loaded_state (bs : BackingStore) (s : VMState) (p : Int) : VMState :=
  { s with
    page_faults := s.page_faults + 1
    temp_frame := fread bs (p * PAGE_SIZE) ++ s.temp_frame.drop (fread bs (p * PAGE_SIZE)).length }

/-- Closed form of the state left by a serviced page fault on page `p` (used
only in states that satisfy `Inv`). -/
def fault_state (bs : BackingStore) (s : VMState) (p : Int) : VMState :=
  { alloc_state (loaded_state bs s p) with
    page_table := ((s.page_table.map (clear_frame (next_frame s))).set p.toNat (next_frame s))
    physical_memory := fun i =>
      if next_frame s * FRAME_SIZE ≤ i ∧ i < next_frame s * FRAME_SIZE + FRAME_SIZE then
        (loaded_state bs s p).temp_frame[(i - next_frame s * FRAME_SIZE).toNat]?
      else s.physical_memory i
    tlb := (s.tlb.map (clear_entry (next_frame s))).set s.next_free_tlb_index.toNat
      ⟨p, next_frame s, 1⟩
    next_free_tlb_index := (s.next_free_tlb_index + 1) % 16 }

/-- The bookkeeping invariant of the request loop. -/
structure Inv (s : VMState) : Prop where
  pt_len : s.page_table.length = 256
  tlb_len : s.tlb.length = 16
  tmp_len : s.temp_frame.length = 256
  ffl_len : s.free_frame_list.length = 64
  tlb_idx : 0 ≤ s.next_free_tlb_index ∧ s.next_free_tlb_index < 16
  asg : ∀ (j : Nat) (f : Int), s.assigned[j]? = some f → f = ((j % 64 : Nat) : Int)
  ffl : ∀ i : Nat, i < 64 →
    s.free_frame_list[i]? = some (if i < s.assigned.length then -1 else 1)
  nfree : s.number_of_free_frames = ((64 - s.assigned.length : Nat) : Int)
  fifo : s.next_fifo_frame
    = if s.assigned.length < 64 then 0 else ((s.assigned.length % 64 : Nat) : Int)
  pt_range : ∀ (p : Nat) (f : Int), s.page_table[p]? = some f → f ≠ -1 →
    0 ≤ f ∧ f < 64 ∧ f < s.assigned.length
  pt_inj : ∀ (p q : Nat) (f : Int),
    s.page_table[p]? = some f → s.page_table[q]? = some f → f ≠ -1 → p = q
  used_mapped : ∀ f : Nat, f < 64 → f < s.assigned.length →
    ∃ p : Nat, s.page_table[p]? = some (f : Int)
  tlb_valid : ∀ (i : Nat) (e : tlb_entry), s.tlb[i]? = some e → e.valid = 1 →
    0 ≤ e.page_number ∧ s.page_table[e.page_number.toNat]? = some e.frame_number
      ∧ e.frame_number ≠ -1
  tlb_invalid : ∀ (i : Nat) (e : tlb_entry), s.tlb[i]? = some e → e.valid ≠ 1 →
    e.frame_number = -1
  tlb_uniq : ∀ (i j : Nat) (e1 e2 : tlb_entry), s.tlb[i]? = some e1 → s.tlb[j]? = some e2 →
    e1.valid = 1 → e2.valid = 1 → e1.page_number = e2.page_number → i = j

/-- Every mapped page has its backing-store contents in its frame. -/
def MemInv (bs : BackingStore) (s : VMState) : Prop :=
  ∀ (p : Nat) (f : Int), s.page_table[p]? = some f → f ≠ -1 →
    ∀ o : Int, 0 ≤ o → o < 256 →
      s.physical_memory (f * FRAME_SIZE + o) = some (bs.byte (p * 256 + o.toNat))

/-- The position in the allocation history at which frame `f` was handed out
for the last time (`none` if it never was).  A smaller position means that the
frame was assigned longer ago. -/
def last_assigned : List Int → Int → Option Nat
  | [], _ => none
  | x :: xs, f =>
    match last_assigned xs f with
    | some j => some (j + 1)
    | none => if x = f then some 0 else none

/-- A sample backing store: 65536 bytes, every seek and read succeeds. -/
def demo_store : BackingStore where
  byte := fun i => ((i % 251 : Nat) : Int) - 100
  size := 65536
  fseek_ok := fun _ => true
  fread_items := fun _ => 256

/-- Sample input: one address in each of the pages `0 .. n-1`. -/
def sweep (n : Nat) : List Int := (List.range n).map (fun i => (i : Int) * 256 + 7)

/-- A truncated backing store: only the first two pages exist, so an `fread`
at any later page delivers no item. -/
def short_store : BackingStore where
  byte := fun i => ((i % 251 : Nat) : Int) - 100
  size := 512
  fseek_ok := fun _ => true
  fread_items := fun _ => 256

/-- A backing store on which every `fseek` reports an error. -/
def unseekable_store : BackingStore where
  byte := fun i => ((i % 251 : Nat) : Int) - 100
  size := 65536
  fseek_ok := fun _ => false
  fread_items := fun _ => 256

/-- A backing store whose third page is cut short after 100 bytes. -/
def cut_store : BackingStore where
  byte := fun i => ((i % 251 : Nat) : Int) - 100
  size := 612
  fseek_ok := fun _ => true
  fread_items := fun _ => 256

/-- The calls `update_tlb(p, f)` for the pairs of the list, in order. -/
def update_tlb_all : VMState → List (Int × Int) → Option VMState
  | s, [] => some s
  | s, (p, f) :: rest =>
    match update_tlb s p f with
    | none => none
    | some s1 => update_tlb_all s1 rest

/-- A backing store whose page 1 is filled with the byte value 42. -/
def store42 : BackingStore where
  byte := fun i => if 256 ≤ i ∧ i < 512 then 42 else 0
  size := 65536
  fseek_ok := fun _ => true
  fread_items := fun _ => 256

/-- The tlb entry that `update_tlb` writes for a pair. -/
def entry_of (pf : Int × Int) : tlb_entry := ⟨pf.1, pf.2, 1⟩

/-- The value of the variable `frame_number` of `main` after the tlb probe
and, on a miss, the page table probe. -/
def find_frame (bs : BackingStore) (s : VMState) (logical_address : Int) :
    Option (Int × VMState) :=
  let r := check_tlb s (get_page_number logical_address)
  if r.1 = -1 then check_page_table bs r.2 (get_page_number logical_address) else some r

/-- The index `frame_number * FRAME_SIZE + offset` at which `main` reads
`physical_memory`. -/
def physical_index (frame_number offset : Int) : Int := frame_number * FRAME_SIZE + offset

/-- States reachable from `init_physical_memory()` by calls of
`get_next_free_frame()` alone. -/
inductive AllocReachable : VMState → Prop
  | init (s0 : VMState) : AllocReachable (init_physical_memory s0)
  | call {s s1 : VMState} {f : Int} :
      AllocReachable s → get_next_free_frame s = some (f, s1) → AllocReachable s1

/-- The number of indices whose `free_frame_list` entry differs from `-1`. -/
def free_count (l : List Int) : Nat := l.countP (fun x => decide (x ≠ -1))

/-- The state after `k` successful calls of `get_next_free_frame()` from
`s` (unchanged from the first undefined call on). -/
def allocate_times : Nat → VMState → VMState
  | 0, s => s
  | k + 1, s =>
    match get_next_free_frame s with
    | some r => allocate_times k r.2
    | none => s

/-- Which of the page-replacement macros the build defines: `FIFO`, `LRU`
or neither. -/
inductive Policy
  | fifo
  | lru
  | noop
deriving DecidableEq

/-- The unfinished LRU page replacement: `return 0;`. -/
def LRU_page_replacement (s : VMState) : Int × VMState := (0, s)

/-- A simple noop page replacement algorithm: `return -99;`. -/
def noop_page_replacement (s : VMState) : Int × VMState := (-99, s)

/-- The function `get_next_free_frame` as built for a given choice of the
replacement macros. -/
def get_next_free_frame_with (pol : Policy) (s : VMState) : Option (Int × VMState) :=
  if s.number_of_free_frames > 0 then
    match scan_free s.free_frame_list 0 with
    | none => none
    | some i =>
      some ((i : Int),
        { s with
          free_frame_list := s.free_frame_list.set i (-1)
          number_of_free_frames := s.number_of_free_frames - 1
          assigned := s.assigned ++ [(i : Int)] })
  else
    let r := match pol with
      | Policy.fifo => FIFO_page_replacement s
      | Policy.lru => LRU_page_replacement s
      | Policy.noop => noop_page_replacement s
    some (r.1, { r.2 with assigned := r.2.assigned ++ [r.1] })

/-- The two statements `frame_number = get_next_free_frame();
page_table[page_number] = frame_number;` of the page-fault path. -/
def install_frame (pol : Policy) (s : VMState) (page_number : Int) :
    Option (Int × VMState) :=
  match get_next_free_frame_with pol s with
  | none => none
  | some (frame_number, s3) =>
    match writeArr s3.page_table page_number frame_number with
    | none => none
    | some pt => some (frame_number, { s3 with page_table := pt })

/-- The function `check_page_table` as built for a given choice of the
replacement macros. -/
def check_page_table_with (pol : Policy) (bs : BackingStore) (s : VMState)
    (page_number : Int) : Option (Int × VMState) :=
  match readArr s.page_table page_number with
  | none => none
  | some frame_number =>
    if frame_number = -1 then
      let s1 := { s with page_faults := s.page_faults + 1 }
      if bs.fseek_ok (page_number * PAGE_SIZE) = false then
        some (-1, s1)
      else
        let got := fread bs (page_number * PAGE_SIZE)
        let s2 := { s1 with temp_frame := got ++ s1.temp_frame.drop got.length }
        if got.length = 0 then
          some (-1, s2)
        else
          match install_frame pol s2 page_number with
          | none => none
          | some (frame_number, s3) =>
            match memcpy_frame s3 frame_number with
            | none => none
            | some s4 =>
              match update_tlb s4 page_number frame_number with
              | none => none
              | some s5 => some (frame_number, s5)
    else
      some (frame_number, s)

end Task

/-!
# The variant without page replacement (`src/VM/example/vm.c`)

Physical memory is the static array `physical_memory[256][256]`
(zero-initialised), frames are handed out by the counter `next_free_frame`,
and `fread` stores the page directly into the frame.  The tlb entry type, the
backing store and the array helpers are shared with the other variant.
-/

namespace Example

open Task (tlb_entry BackingStore readArr writeArr check_tlb_loop fread bits32)

def PAGE_NUMBER_MASK : Nat := 0x0000FF00
def OFFSET_MASK : Nat := 0x000000FF
def PAGE_SIZE : Int := 256
def FRAME_SIZE : Int := 256
def NUMBER_OF_FRAMES : Int := 256
def PAGE_TABLE_SIZE : Int := 256
def TLB_SIZE : Int := 16

/-- The global variables that the program uses (`temp_frame` is declared but
never used in this variant). -/
structure VMState where
  physical_memory : Int → Option Int
  page_table : List Int
  page_faults : Int
  tlb_hits : Int
  next_free_frame : Int
  next_free_tlb_index : Int
  tlb : List tlb_entry

/-- Returns the page number from the logical address. -/
def get_page_number (logical_address : Int) : Int :=
  (((bits32 logical_address &&& PAGE_NUMBER_MASK) >>> 8 : Nat) : Int)

/-- Returns the offset from the logical address. -/
def get_offset (logical_address : Int) : Int :=
  ((bits32 logical_address &&& OFFSET_MASK : Nat) : Int)

/-- Returns the index of the next free page frame:
`next_free_frame++; return (next_free_frame - 1);`. -/
def get_next_free_frame (s : VMState) : Int × VMState :=
  let s1 := { s with next_free_frame := s.next_free_frame + 1 }
  (s1.next_free_frame - 1, s1)

/-- Initializes the page table. -/
def init_page_table (s : VMState) : VMState :=
  { s with page_table := List.replicate PAGE_TABLE_SIZE.toNat (-1) }

/-- Flush the tlb by invalidating all entries (the cursor is not reset). -/
def flush_tlb (s : VMState) : VMState :=
  { s with tlb := s.tlb.map (fun _ => ⟨-1, -1, -1⟩) }

/-- The zero-initialised globals at program start. -/
def boot : VMState where
  physical_memory := fun i =>
    if 0 ≤ i ∧ i < NUMBER_OF_FRAMES * FRAME_SIZE then some 0 else none
  page_table := List.replicate PAGE_TABLE_SIZE.toNat 0
  page_faults := 0
  tlb_hits := 0
  next_free_frame := 0
  next_free_tlb_index := 0
  tlb := List.replicate TLB_SIZE.toNat ⟨0, 0, 0⟩

/-- The state in which `main` enters its request loop:
`init_page_table(); flush_tlb();`. -/
def initial : VMState := flush_tlb (init_page_table boot)

/-- Checks if the page number is present in the tlb. -/
def check_tlb (s : VMState) (page_number : Int) : Int × VMState :=
  match check_tlb_loop s.tlb page_number with
  | some frame_number => (frame_number, { s with tlb_hits := s.tlb_hits + 1 })
  | none => (-1, s)

/-- Updates the tlb (simple FIFO updating algorithm). -/
def update_tlb (s : VMState) (page_number frame_number : Int) : Option VMState :=
  match writeArr s.tlb s.next_free_tlb_index ⟨page_number, frame_number, 1⟩ with
  | none => none
  | some t =>
    some { s with
      tlb := t
      next_free_tlb_index := Int.tmod (s.next_free_tlb_index + 1) TLB_SIZE }

/-- The call `fread(&physical_memory[frame_number], 1, FRAME_SIZE,
backing_store)` that delivers the items `got`; `none` when the destination is
not a row of the array. -/
def fread_frame (s : VMState) (frame_number : Int) (got : List Int) : Option VMState :=
  if 0 ≤ frame_number ∧ frame_number < NUMBER_OF_FRAMES then
    some { s with
      physical_memory := fun i =>
        if frame_number * FRAME_SIZE ≤ i ∧ i < frame_number * FRAME_SIZE + got.length then
          got[(i - frame_number * FRAME_SIZE).toNat]?
        else s.physical_memory i }
  else none

/-- Checks if the page number is present in the page table and services the
page fault when it is not: the frame is taken and entered into the page table
before the page is read. -/
def check_page_table (bs : BackingStore) (s : VMState) (page_number : Int) :
    Option (Int × VMState) :=
  match readArr s.page_table page_number with
  | none => none
  | some frame_number =>
    if frame_number = -1 then
      let s1 := { s with page_faults := s.page_faults + 1 }
      if bs.fseek_ok (page_number * PAGE_SIZE) = false then
        some (-1, s1)
      else
        let r := get_next_free_frame s1
        match writeArr r.2.page_table page_number r.1 with
        | none => none
        | some pt =>
          let got := fread bs (page_number * PAGE_SIZE)
          match fread_frame { r.2 with page_table := pt } r.1 got with
          | none => none
          | some s3 =>
            if got.length = 0 then
              some (-1, s3)
            else
              match update_tlb s3 page_number r.1 with
              | none => none
              | some s4 => some (r.1, s4)
    else
      some (frame_number, s)

/-- One iteration of the `while` loop of `main`. -/
def translate (bs : BackingStore) (s : VMState) (logical_address : Int) :
    Option (Option Int × VMState) :=
  let page_number := get_page_number logical_address
  let offset := get_offset logical_address
  let r := check_tlb s page_number
  let r2 := if r.1 = -1 then check_page_table bs r.2 page_number else some r
  match r2 with
  | none => none
  | some (frame_number, s2) =>
    some (s2.physical_memory (frame_number * FRAME_SIZE + offset), s2)

/-- The `while` loop of `main` over the addresses of the input file. -/
def run (bs : BackingStore) : VMState → List Int → Option (List (Option Int) × VMState)
  | s, [] => some ([], s)
  | s, a :: rest =>
    match translate bs s a with
    | none => none
    | some (v, s1) =>
      match run bs s1 rest with
      | none => none
      | some (vs, s2) => some (v :: vs, s2)

/-- States the request loop can arrive at from the initial state; every
request may meet a different backing-store behaviour. -/
inductive Reachable : VMState → Prop
  | init : Reachable initial
  | step {s s1 : VMState} {v : Option Int} (bs : BackingStore) (a : Int) :
      Reachable s → translate bs s a = some (v, s1) → Reachable s1

/-- The state after the request loop has consumed `reqs`. -/
def after (bs : BackingStore) (reqs : List Int) : VMState :=
  match run bs initial reqs with
  | some r => r.2
  | none => initial

/-- The number of page numbers `p` with `page_table[p] != -1`. -/
def mapped_count (l : List Int) : Nat := l.countP (fun x => decide (x ≠ -1))

/-- The bookkeeping invariant of the request loop. -/
structure Inv (s : VMState) : Prop where
  pt_len : s.page_table.length = 256
  tlb_len : s.tlb.length = 16
  tlb_idx : 0 ≤ s.next_free_tlb_index ∧ s.next_free_tlb_index < 16
  count : s.next_free_frame = ((mapped_count s.page_table : Nat) : Int)

/-- Closed form of the state in which the page-fault path tests the result
of `fread`: the fault is counted, the frame `next_free_frame` is taken and
entered into the page table, and the delivered bytes are in the frame. -/
def taken_state (bs : BackingStore) (s : VMState) (p : Int) : VMState :=
  { s with
    page_faults := s.page_faults + 1
    next_free_frame := s.next_free_frame + 1
    page_table := s.page_table.set p.toNat s.next_free_frame
    physical_memory := fun i =>
      if s.next_free_frame * FRAME_SIZE ≤ i
          ∧ i < s.next_free_frame * FRAME_SIZE + (fread bs (p * PAGE_SIZE)).length then
        (fread bs (p * PAGE_SIZE))[(i - s.next_free_frame * FRAME_SIZE).toNat]?
      else s.physical_memory i }

/-- Closed form of the state left by a serviced page fault on page `p`. -/
def fault_state (bs : BackingStore) (s : VMState) (p : Int) : VMState :=
  { taken_state bs s p with
    tlb := s.tlb.set s.next_free_tlb_index.toNat ⟨p, s.next_free_frame, 1⟩
    next_free_tlb_index := (s.next_free_tlb_index + 1) % 16 }

/-- Every mapped page has its backing-store contents in its frame. -/
def MemInv (bs : BackingStore) (s : VMState) : Prop :=
  ∀ (p : Nat) (f : Int), s.page_table[p]? = some f → f ≠ -1 →
    ∀ o : Int, 0 ≤ o → o < 256 →
      s.physical_memory (f * FRAME_SIZE + o) = some (bs.byte (p * 256 + o.toNat))

/-- The two variants agree on the program variables they share; the counter
`next_free_frame` of this variant is the number of frames the other variant
has handed out. -/
def Sim (t : Task.VMState) (e : VMState) : Prop :=
  e.page_table = t.page_table ∧ e.tlb = t.tlb
    ∧ e.next_free_tlb_index = t.next_free_tlb_index
    ∧ e.page_faults = t.page_faults ∧ e.tlb_hits = t.tlb_hits
    ∧ e.next_free_frame = (t.assigned.length : Int)

end Example

namespace Task

/-! ## Address decoding: arithmetic form -/

theorem and_page_mask (n : Nat) : (n &&& 0xFF00) >>> 8 = n % 65536 / 256 := by
  apply Nat.eq_of_testBit_eq
  intro i
  have h1 : (0xFF00 : Nat) = (2 ^ 8 - 1) <<< 8 := by decide
  have h2 : (65536 : Nat) = 2 ^ 16 := by decide
  have h3 : (256 : Nat) = 2 ^ 8 := by decide
  rw [h1, h2, h3, ← Nat.shiftRight_eq_div_pow, Nat.testBit_shiftRight, Nat.testBit_and,
    Nat.testBit_shiftLeft, Nat.testBit_two_pow_sub_one, Nat.testBit_shiftRight,
    Nat.testBit_mod_two_pow]
  by_cases h : i < 8 <;> simp [h] <;> omega

theorem and_offset_mask (n : Nat) : n &&& 0xFF = n % 256 := by
  have h1 : (0xFF : Nat) = 2 ^ 8 - 1 := by decide
  rw [h1, Nat.and_pow_two_sub_one_eq_mod]

theorem get_page_number_eq (a : Int) : get_page_number a = a % 65536 / 256 := by
  unfold get_page_number bits32 PAGE_NUMBER_MASK
  rw [and_page_mask]
  omega

theorem get_offset_eq (a : Int) : get_offset a = a % 256 := by
  unfold get_offset bits32 OFFSET_MASK
  rw [and_offset_mask]
  omega

theorem get_page_number_range (a : Int) : 0 ≤ get_page_number a ∧ get_page_number a < 256 := by
  rw [get_page_number_eq]
  omega

theorem get_offset_range (a : Int) : 0 ≤ get_offset a ∧ get_offset a < 256 := by
  rw [get_offset_eq]
  omega

/-! ## The array loops -/

theorem invalidate_page_table_loop_eq (l : List Int) (f : Int)
    (h : ∀ i j : Nat, l[i]? = some f → l[j]? = some f → i = j) :
    (invalidate_page_table_loop l f).1 = l.map (fun x => if x = f then -1 else x) := by
  induction l with
  | nil => rfl
  | cons x xs ih =>
    by_cases hx : x = f
    · have hxs : ∀ y ∈ xs, (if y = f then (-1 : Int) else y) = y := by
        intro y hy
        obtain ⟨k, hk⟩ := List.getElem?_of_mem hy
        by_cases hyf : y = f
        · have := h 0 (k + 1) (by simp [hx]) (by simp [hk, hyf])
          omega
        · simp [hyf]
      have hmap : List.map (fun y => if y = f then (-1 : Int) else y) xs = xs := by
        rw [List.map_congr_left hxs]
        simp
      simp [invalidate_page_table_loop, hx, hmap]
    · have ih2 := ih (fun i j hi hj => by
        have := h (i + 1) (j + 1) (by simpa using hi) (by simpa using hj)
        omega)
      simp [invalidate_page_table_loop, hx, ih2]

theorem invalidate_tlb_loop_eq (l : List tlb_entry) (f : Int)
    (h : ∀ (i j : Nat) (e1 e2 : tlb_entry), l[i]? = some e1 → l[j]? = some e2 →
      e1.frame_number = f → e2.frame_number = f → i = j) :
    (invalidate_tlb_loop l f).1
      = l.map (fun e => if e.frame_number = f then (⟨-1, -1, -1⟩ : tlb_entry) else e) := by
  induction l with
  | nil => rfl
  | cons x xs ih =>
    by_cases hx : x.frame_number = f
    · have hxs : ∀ y ∈ xs,
          (if y.frame_number = f then (⟨-1, -1, -1⟩ : tlb_entry) else y) = y := by
        intro y hy
        obtain ⟨k, hk⟩ := List.getElem?_of_mem hy
        by_cases hyf : y.frame_number = f
        · have := h 0 (k + 1) x y (by simp) (by simp [hk]) hx hyf
          omega
        · simp [hyf]
      have hmap : List.map
          (fun y => if y.frame_number = f then (⟨-1, -1, -1⟩ : tlb_entry) else y) xs = xs := by
        rw [List.map_congr_left hxs]
        simp
      simp [invalidate_tlb_loop, hx, hmap]
    · have ih2 := ih (fun i j e1 e2 hi hj h1 h2 => by
        have := h (i + 1) (j + 1) e1 e2 (by simpa using hi) (by simpa using hj) h1 h2
        omega)
      simp [invalidate_tlb_loop, hx, ih2]

theorem check_tlb_loop_some (l : List tlb_entry) (p f : Int)
    (h : check_tlb_loop l p = some f) :
    ∃ (i : Nat) (e : tlb_entry),
      l[i]? = some e ∧ e.page_number = p ∧ e.valid = 1 ∧ e.frame_number = f := by
  induction l with
  | nil => simp [check_tlb_loop] at h
  | cons x xs ih =>
    by_cases hx : x.page_number = p ∧ x.valid = 1
    · refine ⟨0, x, by simp, hx.1, hx.2, ?_⟩
      simpa [check_tlb_loop, hx] using h
    · have h2 : check_tlb_loop xs p = some f := by
        rw [check_tlb_loop, if_neg hx] at h
        exact h
      obtain ⟨i, e, hi, he⟩ := ih h2
      exact ⟨i + 1, e, by simpa using hi, he⟩

theorem check_tlb_loop_none (l : List tlb_entry) (p : Int)
    (h : check_tlb_loop l p = none) :
    ∀ (i : Nat) (e : tlb_entry), l[i]? = some e → ¬ (e.page_number = p ∧ e.valid = 1) := by
  induction l with
  | nil => intro i e hi; simp at hi
  | cons x xs ih =>
    by_cases hx : x.page_number = p ∧ x.valid = 1
    · simp [check_tlb_loop, hx] at h
    · have h2 : check_tlb_loop xs p = none := by
        rw [check_tlb_loop, if_neg hx] at h
        exact h
      intro i e hi
      cases i with
      | zero =>
        simp at hi
        subst hi
        exact hx
      | succ k => exact ih h2 k e (by simpa using hi)

theorem scan_free_eq (l : List Int) (i k : Nat)
    (hused : ∀ j : Nat, j < k → l[j]? = some (-1))
    (hfree : ∃ v, l[k]? = some v ∧ v ≠ -1) :
    scan_free l i = some (i + k) := by
  induction l generalizing i k with
  | nil =>
    obtain ⟨v, hv, _⟩ := hfree
    simp at hv
  | cons x xs ih =>
    cases k with
    | zero =>
      obtain ⟨v, hv, hne⟩ := hfree
      simp at hv
      subst hv
      simp [scan_free, hne]
    | succ k =>
      have hx : x = -1 := by
        have := hused 0 (by omega)
        simpa using this
      have := ih (i + 1) k (fun j hj => by
        have := hused (j + 1) (by omega)
        simpa using this) (by simpa using hfree)
      simp [scan_free, hx, this]
      omega

/-! ## The invariant holds initially -/

theorem initial_page_table : initial.page_table = List.replicate 256 (-1) := rfl

theorem initial_tlb : initial.tlb = List.replicate 16 ⟨-1, -1, -1⟩ := by decide

theorem initial_free_frame_list : initial.free_frame_list = List.replicate 64 1 := rfl

theorem initial_assigned : initial.assigned = [] := rfl

theorem inv_initial : Inv initial := by
  have htmp : initial.temp_frame = List.replicate 256 0 := rfl
  refine ⟨by rw [initial_page_table, List.length_replicate],
    by rw [initial_tlb, List.length_replicate],
    by rw [htmp, List.length_replicate],
    by rw [initial_free_frame_list, List.length_replicate],
    by decide, ?_, ?_, by decide, by decide, ?_, ?_, ?_, ?_, ?_, ?_⟩
  · intro j f h
    rw [initial_assigned] at h
    simp at h
  · intro i hi
    rw [initial_free_frame_list, initial_assigned, List.getElem?_replicate]
    simp [hi]
  · intro p f h hne
    rw [initial_page_table, List.getElem?_replicate] at h
    split at h <;> simp at h
    omega
  · intro p q f h _ hne
    rw [initial_page_table, List.getElem?_replicate] at h
    split at h <;> simp at h
    omega
  · intro f _ h
    rw [initial_assigned] at h
    simp at h
  · intro i e h hv
    rw [initial_tlb, List.getElem?_replicate] at h
    split at h <;> simp at h
    rw [← h] at hv
    simp at hv
  · intro i e h _
    rw [initial_tlb, List.getElem?_replicate] at h
    split at h <;> simp at h
    rw [← h]
  · intro i j e1 e2 h _ hv
    rw [initial_tlb, List.getElem?_replicate] at h
    split at h <;> simp at h
    rw [← h] at hv
    simp at hv

/-! ## Frame allocation in a state satisfying the invariant -/

theorem next_frame_range (s : VMState) : 0 ≤ next_frame s ∧ next_frame s < 64 := by
  unfold next_frame
  omega

theorem tlb_frame_unique {s : VMState} (h : Inv s) (f : Int) (hf : f ≠ -1)
    (i j : Nat) (e1 e2 : tlb_entry) (h1 : s.tlb[i]? = some e1) (h2 : s.tlb[j]? = some e2)
    (hf1 : e1.frame_number = f) (hf2 : e2.frame_number = f) : i = j := by
  have v1 : e1.valid = 1 := by
    by_contra hv
    have := h.tlb_invalid i e1 h1 hv
    omega
  have v2 : e2.valid = 1 := by
    by_contra hv
    have := h.tlb_invalid j e2 h2 hv
    omega
  obtain ⟨p1, m1, n1⟩ := h.tlb_valid i e1 h1 v1
  obtain ⟨p2, m2, n2⟩ := h.tlb_valid j e2 h2 v2
  rw [hf1] at m1
  rw [hf2] at m2
  have := h.pt_inj _ _ f m1 m2 hf
  exact h.tlb_uniq i j e1 e2 h1 h2 v1 v2 (by omega)

theorem clear_frame_unmapped {s : VMState} (h : Inv s) (hn : s.assigned.length < 64) :
    s.page_table.map (clear_frame (next_frame s)) = s.page_table := by
  have hr := next_frame_range s
  have hnf : next_frame s = (s.assigned.length : Int) := by
    unfold next_frame
    omega
  refine (List.map_congr_left ?_).trans (List.map_id _)
  intro x hx
  obtain ⟨k, hk⟩ := List.getElem?_of_mem hx
  unfold clear_frame
  split
  · next hxf =>
    have := h.pt_range k x hk (by omega)
    omega
  · rfl

theorem clear_entry_unmapped {s : VMState} (h : Inv s) (hn : s.assigned.length < 64) :
    s.tlb.map (clear_entry (next_frame s)) = s.tlb := by
  have hr := next_frame_range s
  have hnf : next_frame s = (s.assigned.length : Int) := by
    unfold next_frame
    omega
  refine (List.map_congr_left ?_).trans (List.map_id _)
  intro e he
  obtain ⟨k, hk⟩ := List.getElem?_of_mem he
  unfold clear_entry
  split
  · next hef =>
    by_cases hv : e.valid = 1
    · obtain ⟨_, hm, hne⟩ := h.tlb_valid k e hk hv
      have := h.pt_range _ _ hm hne
      omega
    · have := h.tlb_invalid k e hk hv
      omega
  · rfl

theorem get_next_free_frame_eq {s : VMState} (h : Inv s) :
    get_next_free_frame s = some (next_frame s, alloc_state s) := by
  have hr := next_frame_range s
  by_cases hn : s.assigned.length < 64
  · -- a free frame is left: the search stops at index `assigned.length`
    have hscan : scan_free s.free_frame_list 0 = some s.assigned.length := by
      have := scan_free_eq s.free_frame_list 0 s.assigned.length
        (fun j hj => by rw [h.ffl j (by omega)]; simp [hj])
        ⟨1, by rw [h.ffl _ hn]; simp, by decide⟩
      simpa using this
    have hpos : s.number_of_free_frames > 0 := by rw [h.nfree]; omega
    have hnf : next_frame s = (s.assigned.length : Int) := by
      unfold next_frame
      omega
    have hfifo : s.next_fifo_frame = 0 := by rw [h.fifo, if_pos hn]
    have hfifo2 : (if s.assigned.length + 1 < 64 then (0 : Int)
        else (((s.assigned.length + 1) % 64 : Nat) : Int)) = 0 := by
      split <;> omega
    have hnum : s.number_of_free_frames - 1 = ((64 - (s.assigned.length + 1) : Nat) : Int) := by
      rw [h.nfree]; omega
    unfold get_next_free_frame
    rw [if_pos hpos, hscan]
    simp only [alloc_state]
    rw [clear_frame_unmapped h hn, clear_entry_unmapped h hn, if_pos hn, hfifo2, ← hnum, hnf,
      hfifo]
  · -- no free frame: FIFO replacement of frame `next_fifo_frame`
    have hzero : ¬ s.number_of_free_frames > 0 := by rw [h.nfree]; omega
    have hfifo : s.next_fifo_frame = next_frame s := by
      rw [h.fifo, if_neg hn]
      rfl
    have htlb := invalidate_tlb_loop_eq s.tlb (next_frame s)
      (fun i j e1 e2 h1 h2 hf1 hf2 =>
        tlb_frame_unique h (next_frame s) (by omega) i j e1 e2 h1 h2 hf1 hf2)
    have hpt := invalidate_page_table_loop_eq s.page_table (next_frame s)
      (fun i j h1 h2 => h.pt_inj i j _ h1 h2 (by omega))
    have hmod : Int.tmod (next_frame s + 1) NUMBER_OF_FRAMES
        = if s.assigned.length + 1 < 64 then (0 : Int)
          else (((s.assigned.length + 1) % 64 : Nat) : Int) := by
      rw [Int.tmod_eq_emod (by omega) (by decide), if_neg (by omega)]
      unfold next_frame NUMBER_OF_FRAMES
      omega
    have hnum : s.number_of_free_frames = ((64 - (s.assigned.length + 1) : Nat) : Int) := by
      rw [h.nfree]; omega
    unfold get_next_free_frame
    rw [if_neg hzero]
    simp only [FIFO_page_replacement, invalidate_tlb, invalidate_page_table, hfifo, htlb, hpt,
      hmod, alloc_state, if_neg hn]
    rw [← hnum]
    rfl

/-! ## The state after a serviced page fault -/

theorem set_map_cases {α : Type} (l : List α) (c : α → α) (k : Nat) (v : α) (i : Nat) (x : α)
    (h : ((l.map c).set k v)[i]? = some x) :
    (i = k ∧ x = v) ∨ (i ≠ k ∧ ∃ y, l[i]? = some y ∧ c y = x) := by
  rw [List.getElem?_set] at h
  by_cases hik : k = i
  · rw [if_pos hik] at h
    split at h
    · left
      exact ⟨hik.symm, by simpa using h.symm⟩
    · simp at h
  · rw [if_neg hik, List.getElem?_map, Option.map_eq_some'] at h
    right
    exact ⟨fun e => hik e.symm, h⟩

theorem set_map_self {α : Type} (l : List α) (c : α → α) (k : Nat) (v : α)
    (hk : k < l.length) : ((l.map c).set k v)[k]? = some v := by
  rw [List.getElem?_set, if_pos rfl, if_pos (by simpa using hk)]

theorem set_map_other {α : Type} (l : List α) (c : α → α) (k : Nat) (v : α) (i : Nat) (y : α)
    (hik : i ≠ k) (hy : l[i]? = some y) : ((l.map c).set k v)[i]? = some (c y) := by
  rw [List.getElem?_set, if_neg (fun e => hik e.symm), List.getElem?_map, hy]
  rfl

theorem fread_length_le (bs : BackingStore) (off : Int) : (fread bs off).length ≤ 256 := by
  simp only [fread, FRAME_SIZE, List.length_map, List.length_range]
  omega

theorem fault_page_table (bs : BackingStore) (s : VMState) (p : Int) :
    (fault_state bs s p).page_table
      = (s.page_table.map (clear_frame (next_frame s))).set p.toNat (next_frame s) := rfl

theorem fault_tlb (bs : BackingStore) (s : VMState) (p : Int) :
    (fault_state bs s p).tlb
      = (s.tlb.map (clear_entry (next_frame s))).set s.next_free_tlb_index.toNat
          ⟨p, next_frame s, 1⟩ := rfl

theorem fault_assigned (bs : BackingStore) (s : VMState) (p : Int) :
    (fault_state bs s p).assigned = s.assigned ++ [next_frame s] := rfl

theorem fault_assigned_length (bs : BackingStore) (s : VMState) (p : Int) :
    (fault_state bs s p).assigned.length = s.assigned.length + 1 := by
  rw [fault_assigned, List.length_append]
  rfl

theorem inv_fault {s : VMState} (h : Inv s) (bs : BackingStore) (p : Int)
    (hp : 0 ≤ p ∧ p < 256) (hpt : s.page_table[p.toNat]? = some (-1)) :
    Inv (fault_state bs s p) := by
  have hr := next_frame_range s
  have hnf : next_frame s = ((s.assigned.length % 64 : Nat) : Int) := rfl
  have hlen := fault_assigned_length bs s p
  have hpl : p.toNat < s.page_table.length := by rw [h.pt_len]; omega
  have hil : s.next_free_tlb_index.toNat < s.tlb.length := by
    rw [h.tlb_len]
    have := h.tlb_idx
    omega
  have hcf : ∀ x g : Int, clear_frame (next_frame s) x = g → g ≠ -1 → x = g ∧ g ≠ next_frame s := by
    intro x g hx hg
    unfold clear_frame at hx
    split at hx <;> omega
  have hce : ∀ x e : tlb_entry, clear_entry (next_frame s) x = e → e.valid = 1 →
      x = e ∧ e.frame_number ≠ next_frame s := by
    intro x e hx hv
    unfold clear_entry at hx
    split at hx
    · rw [← hx] at hv
      simp at hv
    · next hne =>
      subst hx
      exact ⟨rfl, hne⟩
  constructor
  · rw [fault_page_table, List.length_set, List.length_map, h.pt_len]
  · rw [fault_tlb, List.length_set, List.length_map, h.tlb_len]
  · show (fread bs (p * PAGE_SIZE) ++ s.temp_frame.drop (fread bs (p * PAGE_SIZE)).length).length
      = 256
    have := fread_length_le bs (p * PAGE_SIZE)
    rw [List.length_append, List.length_drop, h.tmp_len]
    omega
  · show (if s.assigned.length < 64 then s.free_frame_list.set s.assigned.length (-1)
      else s.free_frame_list).length = 64
    split
    · rw [List.length_set, h.ffl_len]
    · exact h.ffl_len
  · show 0 ≤ (s.next_free_tlb_index + 1) % 16 ∧ (s.next_free_tlb_index + 1) % 16 < 16
    omega
  · intro j g hj
    rw [fault_assigned, List.getElem?_append] at hj
    split at hj
    · exact h.asg j g hj
    · next hjn =>
      have hj0 : j - s.assigned.length = 0 := by
        by_contra hne
        rw [List.getElem?_eq_none (by simp; omega)] at hj
        simp at hj
      rw [hj0] at hj
      simp at hj
      have : j = s.assigned.length := by omega
      rw [← hj, hnf, this]
  · intro i hi
    rw [hlen]
    show (if s.assigned.length < 64 then s.free_frame_list.set s.assigned.length (-1)
      else s.free_frame_list)[i]? = _
    have hold := h.ffl i hi
    split
    · next hn =>
      rw [List.getElem?_set]
      by_cases hin : s.assigned.length = i
      · rw [if_pos hin, if_pos (by rw [h.ffl_len]; omega), if_pos (by omega)]
      · rw [if_neg hin, hold]
        by_cases hlt : i < s.assigned.length
        · rw [if_pos hlt, if_pos (by omega)]
        · rw [if_neg hlt, if_neg (by omega)]
    · next hn =>
      rw [hold, if_pos (by omega), if_pos (by omega)]
  · rw [hlen]
    rfl
  · rw [hlen]
    rfl
  · intro q g hq hg
    rw [hlen]
    rw [fault_page_table] at hq
    rcases set_map_cases _ _ _ _ _ _ hq with ⟨_, hgf⟩ | ⟨_, y, hy, hc⟩
    · rw [hgf, hnf]
      omega
    · obtain ⟨hyg, _⟩ := hcf y g hc hg
      subst hyg
      have := h.pt_range q y hy hg
      omega
  · intro q1 q2 g hq1 hq2 hg
    rw [fault_page_table] at hq1 hq2
    rcases set_map_cases _ _ _ _ _ _ hq1 with ⟨e1, hg1⟩ | ⟨n1, y1, hy1, hc1⟩
    · rcases set_map_cases _ _ _ _ _ _ hq2 with ⟨e2, _⟩ | ⟨_, y2, _, hc2⟩
      · omega
      · have := (hcf y2 g hc2 hg).2
        omega
    · rcases set_map_cases _ _ _ _ _ _ hq2 with ⟨_, hg2⟩ | ⟨_, y2, hy2, hc2⟩
      · have := (hcf y1 g hc1 hg).2
        omega
      · obtain ⟨e1, _⟩ := hcf y1 g hc1 hg
        obtain ⟨e2, _⟩ := hcf y2 g hc2 hg
        subst e1
        subst e2
        exact h.pt_inj q1 q2 _ hy1 hy2 hg
  · intro g hg64 hgn
    rw [hlen] at hgn
    rw [fault_page_table]
    by_cases hgf : (g : Int) = next_frame s
    · exact ⟨p.toNat, by rw [hgf]; exact set_map_self _ _ _ _ hpl⟩
    · have hlt : g < s.assigned.length := by
        rw [hnf] at hgf
        omega
      obtain ⟨q, hq⟩ := h.used_mapped g hg64 hlt
      have hqp : q ≠ p.toNat := by
        intro e
        rw [e, hpt] at hq
        simp at hq
      refine ⟨q, ?_⟩
      rw [set_map_other _ _ _ _ _ _ hqp hq]
      simp [clear_frame, hgf]
  · intro i e hi hv
    rw [fault_tlb] at hi
    rw [fault_page_table]
    rcases set_map_cases _ _ _ _ _ _ hi with ⟨_, he⟩ | ⟨_, y, hy, hc⟩
    · subst he
      exact ⟨hp.1, set_map_self _ _ _ _ hpl, by show next_frame s ≠ -1; omega⟩
    · obtain ⟨hye, hne⟩ := hce y e hc hv
      subst hye
      obtain ⟨h0, hm, hn1⟩ := h.tlb_valid i y hy hv
      have hqp : y.page_number.toNat ≠ p.toNat := by
        intro e
        rw [e, hpt] at hm
        simp at hm
        omega
      refine ⟨h0, ?_, hn1⟩
      rw [set_map_other _ _ _ _ _ _ hqp hm]
      simp [clear_frame, hne]
  · intro i e hi hv
    rw [fault_tlb] at hi
    rcases set_map_cases _ _ _ _ _ _ hi with ⟨_, he⟩ | ⟨_, y, hy, hc⟩
    · subst he
      simp at hv
    · unfold clear_entry at hc
      split at hc
      · rw [← hc]
      · subst hc
        exact h.tlb_invalid i y hy hv
  · intro i j e1 e2 hi hj hv1 hv2 hpg
    rw [fault_tlb] at hi hj
    have key : ∀ y : tlb_entry, ∀ k : Nat, s.tlb[k]? = some y → y.valid = 1 →
        y.page_number ≠ p := by
      intro y k hy hv hyp
      obtain ⟨_, hm, hn1⟩ := h.tlb_valid k y hy hv
      rw [hyp, hpt] at hm
      simp at hm
      omega
    rcases set_map_cases _ _ _ _ _ _ hi with ⟨ei, he1⟩ | ⟨_, y1, hy1, hc1⟩
    · rcases set_map_cases _ _ _ _ _ _ hj with ⟨ej, _⟩ | ⟨_, y2, hy2, hc2⟩
      · omega
      · obtain ⟨hye, _⟩ := hce y2 e2 hc2 hv2
        subst hye
        subst he1
        exact absurd hpg.symm (key y2 j hy2 hv2)
    · obtain ⟨hye1, _⟩ := hce y1 e1 hc1 hv1
      subst hye1
      rcases set_map_cases _ _ _ _ _ _ hj with ⟨_, he2⟩ | ⟨_, y2, hy2, hc2⟩
      · subst he2
        exact absurd hpg (key y1 i hy1 hv1)
      · obtain ⟨hye2, _⟩ := hce y2 e2 hc2 hv2
        subst hye2
        exact h.tlb_uniq i j y1 y2 hy1 hy2 hv1 hv2 hpg

/-- The invariant only reads the bookkeeping fields. -/
theorem inv_of_fields {s t : VMState} (h : Inv s)
    (h1 : t.page_table = s.page_table) (h2 : t.tlb = s.tlb)
    (h3 : t.temp_frame.length = 256) (h4 : t.free_frame_list = s.free_frame_list)
    (h5 : t.next_free_tlb_index = s.next_free_tlb_index) (h6 : t.assigned = s.assigned)
    (h7 : t.number_of_free_frames = s.number_of_free_frames)
    (h8 : t.next_fifo_frame = s.next_fifo_frame) : Inv t := by
  constructor
  · rw [h1]; exact h.pt_len
  · rw [h2]; exact h.tlb_len
  · exact h3
  · rw [h4]; exact h.ffl_len
  · rw [h5]; exact h.tlb_idx
  · rw [h6]; exact h.asg
  · rw [h4, h6]; exact h.ffl
  · rw [h7, h6]; exact h.nfree
  · rw [h8, h6]; exact h.fifo
  · rw [h1, h6]; exact h.pt_range
  · rw [h1]; exact h.pt_inj
  · rw [h1, h6]; exact h.used_mapped
  · rw [h1, h2]; exact h.tlb_valid
  · rw [h2]; exact h.tlb_invalid
  · rw [h2]; exact h.tlb_uniq

theorem inv_loaded {s : VMState} (h : Inv s) (bs : BackingStore) (p : Int) :
    Inv (loaded_state bs s p) := by
  refine inv_of_fields h rfl rfl ?_ rfl rfl rfl rfl rfl
  show (fread bs (p * PAGE_SIZE) ++ s.temp_frame.drop (fread bs (p * PAGE_SIZE)).length).length
    = 256
  have := fread_length_le bs (p * PAGE_SIZE)
  rw [List.length_append, List.length_drop, h.tmp_len]
  omega

/-! ## Closed forms of `check_page_table` -/

theorem readArr_eq {α : Type} (l : List α) (p : Int) (hp : 0 ≤ p) :
    readArr l p = l[p.toNat]? := by
  unfold readArr
  rw [if_neg (by omega)]

theorem check_page_table_mapped (bs : BackingStore) (s : VMState) (p f : Int) (hp : 0 ≤ p)
    (hpt : s.page_table[p.toNat]? = some f) (hf : f ≠ -1) :
    check_page_table bs s p = some (f, s) := by
  unfold check_page_table
  rw [readArr_eq _ _ hp, hpt]
  simp only [if_neg hf]

theorem check_page_table_seek_error (bs : BackingStore) (s : VMState) (p : Int) (hp : 0 ≤ p)
    (hpt : s.page_table[p.toNat]? = some (-1)) (hseek : bs.fseek_ok (p * PAGE_SIZE) = false) :
    check_page_table bs s p = some (-1, { s with page_faults := s.page_faults + 1 }) := by
  unfold check_page_table
  rw [readArr_eq _ _ hp, hpt]
  simp only [if_pos, hseek]

theorem check_page_table_read_error (bs : BackingStore) (s : VMState) (p : Int) (hp : 0 ≤ p)
    (hpt : s.page_table[p.toNat]? = some (-1)) (hseek : bs.fseek_ok (p * PAGE_SIZE) = true)
    (hread : (fread bs (p * PAGE_SIZE)).length = 0) :
    check_page_table bs s p = some (-1, loaded_state bs s p) := by
  unfold check_page_table
  rw [readArr_eq _ _ hp, hpt]
  simp only [if_pos, hseek, Bool.true_eq_false, if_false]
  rw [if_pos hread]
  rfl

theorem check_page_table_fault {s : VMState} (h : Inv s) (bs : BackingStore) (p : Int)
    (hp : 0 ≤ p ∧ p < 256) (hpt : s.page_table[p.toNat]? = some (-1))
    (hseek : bs.fseek_ok (p * PAGE_SIZE) = true)
    (hread : (fread bs (p * PAGE_SIZE)).length ≠ 0) :
    check_page_table bs s p = some (next_frame s, fault_state bs s p) := by
  have hr := next_frame_range s
  have hl := inv_loaded h bs p
  have hg := get_next_free_frame_eq hl
  have hpl : p.toNat < s.page_table.length := by rw [h.pt_len]; omega
  have hidx := h.tlb_idx
  have hil : s.next_free_tlb_index.toNat < s.tlb.length := by
    rw [h.tlb_len]
    omega
  unfold check_page_table
  rw [readArr_eq _ _ hp.1, hpt]
  simp only [if_pos, hseek, Bool.true_eq_false, if_false]
  rw [if_neg hread]
  change (match get_next_free_frame (loaded_state bs s p) with
    | none => none
    | some (frame_number, s3) => _) = _
  rw [hg]
  have c1 : 0 ≤ p ∧ p.toNat < (alloc_state (loaded_state bs s p)).page_table.length := by
    refine ⟨hp.1, ?_⟩
    show p.toNat < (s.page_table.map _).length
    rw [List.length_map]
    exact hpl
  have c2 : 0 ≤ next_frame (loaded_state bs s p)
      ∧ next_frame (loaded_state bs s p) < NUMBER_OF_FRAMES := hr
  have c3 : 0 ≤ (alloc_state (loaded_state bs s p)).next_free_tlb_index
      ∧ (alloc_state (loaded_state bs s p)).next_free_tlb_index.toNat
        < (alloc_state (loaded_state bs s p)).tlb.length := by
    refine ⟨hidx.1, ?_⟩
    show s.next_free_tlb_index.toNat < (s.tlb.map _).length
    rw [List.length_map]
    exact hil
  have c4 : Int.tmod ((alloc_state (loaded_state bs s p)).next_free_tlb_index + 1) TLB_SIZE
      = (s.next_free_tlb_index + 1) % 16 :=
    Int.tmod_eq_emod (by show 0 ≤ s.next_free_tlb_index + 1; omega) (by decide)
  simp only [writeArr, if_pos c1]
  simp only [memcpy_frame, if_pos c2]
  simp only [update_tlb, writeArr]
  rw [if_pos c3]
  simp only [c4]
  rfl

/-! ## Closed forms of one loop iteration -/

theorem translate_hit (bs : BackingStore) (s : VMState) (a f : Int)
    (hc : check_tlb_loop s.tlb (get_page_number a) = some f) (hf : f ≠ -1) :
    translate bs s a
      = some (s.physical_memory (f * FRAME_SIZE + get_offset a),
          { s with tlb_hits := s.tlb_hits + 1 }) := by
  unfold translate check_tlb
  simp only [hc, if_neg hf]

theorem translate_miss (bs : BackingStore) (s : VMState) (a : Int)
    (hc : check_tlb_loop s.tlb (get_page_number a) = none) :
    translate bs s a
      = match check_page_table bs s (get_page_number a) with
        | none => none
        | some (frame_number, s2) =>
          some (s2.physical_memory (frame_number * FRAME_SIZE + get_offset a), s2) := by
  unfold translate check_tlb
  simp only [hc, if_pos]

theorem check_tlb_loop_frame {s : VMState} (h : Inv s) (p f : Int)
    (hc : check_tlb_loop s.tlb p = some f) :
    0 ≤ p ∧ s.page_table[p.toNat]? = some f ∧ f ≠ -1 := by
  obtain ⟨i, e, hi, hpe, hv, hfe⟩ := check_tlb_loop_some _ _ _ hc
  have := h.tlb_valid i e hi hv
  rw [hpe, hfe] at this
  exact this

theorem page_table_entry {s : VMState} (h : Inv s) (p : Int) (hp : 0 ≤ p ∧ p < 256) :
    ∃ x, s.page_table[p.toNat]? = some x := by
  have hl : p.toNat < s.page_table.length := by rw [h.pt_len]; omega
  exact ⟨s.page_table[p.toNat], List.getElem?_eq_getElem hl⟩

/-- One loop iteration is always defined in a state satisfying the invariant
and re-establishes it, whatever the backing store does. -/
theorem translate_inv {s : VMState} (h : Inv s) (bs : BackingStore) (a : Int) :
    ∃ v s1, translate bs s a = some (v, s1) ∧ Inv s1 := by
  have hp := get_page_number_range a
  cases hc : check_tlb_loop s.tlb (get_page_number a) with
  | some f =>
    have hf := (check_tlb_loop_frame h _ _ hc).2.2
    exact ⟨_, _, translate_hit bs s a f hc hf, inv_of_fields h rfl rfl h.tmp_len rfl rfl rfl rfl rfl⟩
  | none =>
    rw [translate_miss bs s a hc]
    obtain ⟨x, hx⟩ := page_table_entry h _ hp
    by_cases hx1 : x = -1
    · subst hx1
      cases hseek : bs.fseek_ok (get_page_number a * PAGE_SIZE) with
      | false =>
        rw [check_page_table_seek_error bs s _ hp.1 hx hseek]
        exact ⟨_, _, rfl, inv_of_fields h rfl rfl h.tmp_len rfl rfl rfl rfl rfl⟩
      | true =>
        by_cases hread : (fread bs (get_page_number a * PAGE_SIZE)).length = 0
        · rw [check_page_table_read_error bs s _ hp.1 hx hseek hread]
          exact ⟨_, _, rfl, inv_loaded h bs _⟩
        · rw [check_page_table_fault h bs _ hp hx hseek hread]
          exact ⟨_, _, rfl, inv_fault h bs _ hp hx⟩
    · rw [check_page_table_mapped bs s _ x hp.1 hx hx1]
      exact ⟨_, _, rfl, h⟩

theorem reachable_inv {s : VMState} (h : Reachable s) : Inv s := by
  induction h with
  | init => exact inv_initial
  | step bs a _ ht ih =>
    obtain ⟨v, s1, he, hi⟩ := translate_inv ih bs a
    rw [he] at ht
    cases ht
    exact hi

theorem run_reachable (bs : BackingStore) (reqs : List Int) :
    ∀ (s : VMState), Reachable s →
      ∃ r, run bs s reqs = some r ∧ Reachable r.2 ∧ r.1.length = reqs.length := by
  induction reqs with
  | nil => intro s hs; exact ⟨([], s), rfl, hs, rfl⟩
  | cons a rest ih =>
    intro s hs
    obtain ⟨v, s1, he, _⟩ := translate_inv (reachable_inv hs) bs a
    obtain ⟨r, hr, hreach, hlen⟩ := ih s1 (Reachable.step bs a hs he)
    refine ⟨(v :: r.1, r.2), ?_, hreach, by simp [hlen]⟩
    simp only [run, he, hr]

theorem reachable_after (bs : BackingStore) (reqs : List Int) : Reachable (after bs reqs) := by
  obtain ⟨r, hr, hreach, _⟩ := run_reachable bs reqs initial Reachable.init
  unfold after
  rw [hr]
  exact hreach

/-! ## Frame contents under a readable backing store -/

theorem fread_readable {bs : BackingStore} (hb : Readable bs) (p : Int)
    (hp : 0 ≤ p ∧ p < 256) :
    fread bs (p * PAGE_SIZE) = (List.range 256).map (fun i => bs.byte (p.toNat * 256 + i)) := by
  have h1 := hb.1
  have h2 := hb.2.2 (p * PAGE_SIZE)
  have hoff : (p * PAGE_SIZE).toNat = p.toNat * 256 := by
    unfold PAGE_SIZE
    omega
  have hmin : min FRAME_SIZE.toNat
      (min (bs.fread_items (p * PAGE_SIZE)) (bs.size - (p * PAGE_SIZE).toNat)) = 256 := by
    have : FRAME_SIZE.toNat = 256 := rfl
    rw [this, h1, hoff]
    omega
  unfold fread
  rw [hmin, hoff]

theorem loaded_temp_frame {bs : BackingStore} (hb : Readable bs) (s : VMState) (p : Int)
    (hp : 0 ≤ p ∧ p < 256) (k : Nat) (hk : k < 256) :
    (loaded_state bs s p).temp_frame[k]? = some (bs.byte (p.toNat * 256 + k)) := by
  show (fread bs (p * PAGE_SIZE) ++ s.temp_frame.drop (fread bs (p * PAGE_SIZE)).length)[k]? = _
  rw [fread_readable hb p hp, List.getElem?_append_left (by simpa using hk),
    List.getElem?_map, List.getElem?_range hk]
  rfl

theorem mem_inv_initial (bs : BackingStore) : MemInv bs initial := by
  intro p f h hf
  rw [initial_page_table, List.getElem?_replicate] at h
  split at h <;> simp at h
  omega

theorem mem_inv_fault {bs : BackingStore} (hb : Readable bs) {s : VMState}
    (hm : MemInv bs s) (p : Int) (hp : 0 ≤ p ∧ p < 256) :
    MemInv bs (fault_state bs s p) := by
  have hr := next_frame_range s
  intro q g hq hg o ho0 ho1
  rw [fault_page_table] at hq
  show (if next_frame s * FRAME_SIZE ≤ g * FRAME_SIZE + o
        ∧ g * FRAME_SIZE + o < next_frame s * FRAME_SIZE + FRAME_SIZE then
      (loaded_state bs s p).temp_frame[(g * FRAME_SIZE + o - next_frame s * FRAME_SIZE).toNat]?
    else s.physical_memory (g * FRAME_SIZE + o)) = _
  rcases set_map_cases _ _ _ _ _ _ hq with ⟨hqp, hgf⟩ | ⟨_, y, hy, hc⟩
  · subst hgf
    have hidx : (next_frame s * FRAME_SIZE + o - next_frame s * FRAME_SIZE).toNat = o.toNat := by
      omega
    rw [if_pos (by unfold FRAME_SIZE; omega), hidx,
      loaded_temp_frame hb s p hp o.toNat (by omega), hqp]
  · unfold clear_frame at hc
    split at hc
    · omega
    · next hne =>
      subst hc
      rw [if_neg (by unfold FRAME_SIZE; omega)]
      exact hm q y hy hg o ho0 ho1

/-- With a readable backing store one loop iteration prints the backing-store
byte of the requested address and keeps both invariants. -/
theorem translate_readable {bs : BackingStore} (hb : Readable bs) {s : VMState} (h : Inv s)
    (hm : MemInv bs s) (a : Int) :
    ∃ s1, translate bs s a
        = some (some (bs.byte (get_page_number a * 256 + get_offset a).toNat), s1)
      ∧ Inv s1 ∧ MemInv bs s1 := by
  have hp := get_page_number_range a
  have ho := get_offset_range a
  have hbyte : (get_page_number a * 256 + get_offset a).toNat
      = (get_page_number a).toNat * 256 + (get_offset a).toNat := by omega
  rw [hbyte]
  cases hc : check_tlb_loop s.tlb (get_page_number a) with
  | some f =>
    obtain ⟨_, hpt, hf⟩ := check_tlb_loop_frame h _ _ hc
    refine ⟨{ s with tlb_hits := s.tlb_hits + 1 }, ?_,
      inv_of_fields h rfl rfl h.tmp_len rfl rfl rfl rfl rfl, hm⟩
    rw [translate_hit bs s a f hc hf, hm _ f hpt hf _ ho.1 ho.2]
  | none =>
    rw [translate_miss bs s a hc]
    obtain ⟨x, hx⟩ := page_table_entry h _ hp
    by_cases hx1 : x = -1
    · subst hx1
      have hseek := hb.2.1 (get_page_number a * PAGE_SIZE)
      have hread : (fread bs (get_page_number a * PAGE_SIZE)).length ≠ 0 := by
        rw [fread_readable hb _ hp]
        simp
      rw [check_page_table_fault h bs _ hp hx hseek hread]
      have hi := inv_fault h bs _ hp hx
      have hm2 := mem_inv_fault hb hm _ hp
      refine ⟨_, ?_, hi, hm2⟩
      have hself : (fault_state bs s (get_page_number a)).page_table[(get_page_number a).toNat]?
          = some (next_frame s) := by
        rw [fault_page_table]
        exact set_map_self _ _ _ _ (by rw [h.pt_len]; omega)
      have hr := next_frame_range s
      show some ((fault_state bs s (get_page_number a)).physical_memory _, _) = _
      rw [hm2 _ _ hself (by omega) _ ho.1 ho.2]
    · rw [check_page_table_mapped bs s _ x hp.1 hx hx1]
      refine ⟨_, ?_, h, hm⟩
      show some (s.physical_memory _, _) = _
      rw [hm _ x hx hx1 _ ho.1 ho.2]

theorem run_readable {bs : BackingStore} (hb : Readable bs) (reqs : List Int) :
    ∀ s : VMState, Inv s → MemInv bs s →
      ∃ s1, run bs s reqs
          = some (reqs.map
              (fun a => some (bs.byte (get_page_number a * 256 + get_offset a).toNat)), s1)
        ∧ Inv s1 ∧ MemInv bs s1 := by
  induction reqs with
  | nil => intro s h hm; exact ⟨s, rfl, h, hm⟩
  | cons a rest ih =>
    intro s h hm
    obtain ⟨s1, he, hi, hm1⟩ := translate_readable hb h hm a
    obtain ⟨s2, hr, hi2, hm2⟩ := ih s1 hi hm1
    refine ⟨s2, ?_, hi2, hm2⟩
    simp only [run, he, hr, List.map_cons]

/-! ## The settled claims -/

theorem demo_readable : Readable demo_store :=
  ⟨rfl, fun _ => rfl, fun _ => Nat.le_refl _⟩

/-- C1. Translation is transparent: for every finite sequence of logical
addresses and every backing store of 65536 bytes whose seeks and reads all
succeed, the request loop started in the initial state is defined and prints,
for each request `a`, the backing-store byte at index
`get_page_number a * 256 + get_offset a`, whatever replacements and TLB
evictions happened before. -/
theorem translation_transparent (bs : BackingStore) (hb : Readable bs) (reqs : List Int) :
    ∃ s, run bs initial reqs
      = some (reqs.map
          (fun a => some (bs.byte (get_page_number a * 256 + get_offset a).toNat)), s) := by
  obtain ⟨s, hs, _⟩ := run_readable hb reqs initial inv_initial (mem_inv_initial bs)
  exact ⟨s, hs⟩

theorem translation_transparent_witness :
    Readable demo_store ∧
      ∃ s, run demo_store initial (sweep 80 ++ [7, 65543, 20000, -1])
        = some ((sweep 80 ++ [7, 65543, 20000, -1]).map
            (fun a =>
              some (demo_store.byte (get_page_number a * 256 + get_offset a).toNat)), s) :=
  ⟨demo_readable, translation_transparent demo_store demo_readable _⟩

theorem last_assigned_none (l : List Int) (f : Int) (h : last_assigned l f = none) :
    ∀ k : Nat, l[k]? ≠ some f := by
  induction l with
  | nil => intro k; simp
  | cons x xs ih =>
    unfold last_assigned at h
    cases hl : last_assigned xs f with
    | some j => rw [hl] at h; simp at h
    | none =>
      rw [hl] at h
      simp only at h
      have hx : x ≠ f := by
        intro e
        rw [if_pos e] at h
        simp at h
      intro k
      cases k with
      | zero => simpa using hx
      | succ k => simpa using ih hl k

theorem last_assigned_some (l : List Int) (f : Int) (j : Nat) (h : last_assigned l f = some j) :
    l[j]? = some f ∧ ∀ k : Nat, j < k → l[k]? ≠ some f := by
  induction l generalizing j with
  | nil => simp [last_assigned] at h
  | cons x xs ih =>
    unfold last_assigned at h
    cases hl : last_assigned xs f with
    | some j1 =>
      rw [hl] at h
      simp only [Option.some.injEq] at h
      subst h
      obtain ⟨h1, h2⟩ := ih j1 hl
      refine ⟨by simpa using h1, ?_⟩
      intro k hk
      cases k with
      | zero => omega
      | succ k => simpa using h2 k (by omega)
    | none =>
      rw [hl] at h
      simp only at h
      by_cases hx : x = f
      · rw [if_pos hx] at h
        simp only [Option.some.injEq] at h
        subst h
        refine ⟨by simp [hx], ?_⟩
        intro k hk
        cases k with
        | zero => omega
        | succ k => simpa using last_assigned_none xs f hl k
      · rw [if_neg hx] at h
        simp at h

theorem last_assigned_exists (l : List Int) (f : Int) (k : Nat) (h : l[k]? = some f) :
    ∃ j, last_assigned l f = some j := by
  cases hl : last_assigned l f with
  | some j => exact ⟨j, rfl⟩
  | none => exact absurd h (last_assigned_none l f hl k)

theorem assigned_entry {s : VMState} (h : Inv s) (j : Nat) (hj : j < s.assigned.length) :
    s.assigned[j]? = some (((j % 64 : Nat) : Int)) := by
  have h1 : s.assigned[j]? = some s.assigned[j] := List.getElem?_eq_getElem hj
  rw [h1, ← h.asg j _ h1]

theorem alloc_page_table_ne (s : VMState) (q : Nat) :
    (alloc_state s).page_table[q]? ≠ some (next_frame s) := by
  have hr := next_frame_range s
  show (s.page_table.map (clear_frame (next_frame s)))[q]? ≠ _
  rw [List.getElem?_map]
  intro h
  rw [Option.map_eq_some'] at h
  obtain ⟨x, _, hx⟩ := h
  unfold clear_frame at hx
  split at hx <;> omega

theorem alloc_tlb_ne (s : VMState) (i : Nat) (e : tlb_entry)
    (h : (alloc_state s).tlb[i]? = some e) : e.frame_number ≠ next_frame s := by
  have hr := next_frame_range s
  change (s.tlb.map (clear_entry (next_frame s)))[i]? = some e at h
  rw [List.getElem?_map, Option.map_eq_some'] at h
  obtain ⟨x, _, hx⟩ := h
  unfold clear_entry at hx
  split at hx
  · rw [← hx]
    show (-1 : Int) ≠ next_frame s
    omega
  · next hne =>
    rw [← hx]
    exact hne

/-- C2. FIFO frame replacement: in every reachable state in which
`number_of_free_frames` is `0`, the next call of `get_next_free_frame` returns
a frame `f` that is currently mapped by the page table and whose last
assignment is not later than the last assignment of any other currently mapped
frame; when the call returns, no page table entry equals `f` and no tlb entry
(valid or not) has `frame_number == f`. -/
theorem fifo_frame_replacement (s : VMState) (h : Reachable s)
    (h0 : s.number_of_free_frames = 0) :
    ∃ f s1, get_next_free_frame s = some (f, s1)
      ∧ (∃ q : Nat, s.page_table[q]? = some f)
      ∧ (∃ tf, last_assigned s.assigned f = some tf
          ∧ ∀ (q : Nat) (g : Int), s.page_table[q]? = some g → g ≠ -1 →
              ∃ tg, last_assigned s.assigned g = some tg ∧ tf ≤ tg)
      ∧ (∀ q : Nat, s1.page_table[q]? ≠ some f)
      ∧ (∀ (i : Nat) (e : tlb_entry), s1.tlb[i]? = some e → e.frame_number ≠ f) := by
  have hI := reachable_inv h
  have hn : 64 ≤ s.assigned.length := by
    have := hI.nfree
    omega
  have hr := next_frame_range s
  have hnf : next_frame s = ((s.assigned.length % 64 : Nat) : Int) := rfl
  refine ⟨next_frame s, alloc_state s, get_next_free_frame_eq hI, ?_, ?_,
    alloc_page_table_ne s, alloc_tlb_ne s⟩
  · exact hI.used_mapped (s.assigned.length % 64) (by omega) (by omega)
  · have hvict : s.assigned[s.assigned.length - 64]? = some (next_frame s) := by
      rw [assigned_entry hI _ (by omega), hnf]
      congr 2
      omega
    obtain ⟨tf, htf⟩ := last_assigned_exists _ _ _ hvict
    obtain ⟨hf1, _⟩ := last_assigned_some _ _ _ htf
    have htfn : tf < s.assigned.length := by
      by_contra hge
      rw [List.getElem?_eq_none (by omega)] at hf1
      simp at hf1
    have htfm : tf % 64 = s.assigned.length % 64 := by
      rw [assigned_entry hI _ htfn, hnf] at hf1
      simp only [Option.some.injEq] at hf1
      omega
    refine ⟨tf, htf, ?_⟩
    intro q g hq hg
    obtain ⟨hg0, hg64, hgn⟩ := hI.pt_range q g hq hg
    -- the position inside the last 64 assignments at which `g` was handed out
    have hk : ∃ k : Nat, s.assigned.length - 64 ≤ k ∧ k < s.assigned.length
        ∧ ((k % 64 : Nat) : Int) = g := by
      refine ⟨s.assigned.length - 64
        + (g.toNat + 64 - (s.assigned.length - 64) % 64) % 64, ?_, ?_, ?_⟩ <;> omega
    obtain ⟨k, hk1, hk2, hk3⟩ := hk
    have hgk : s.assigned[k]? = some g := by rw [assigned_entry hI _ hk2, hk3]
    obtain ⟨tg, htg⟩ := last_assigned_exists _ _ _ hgk
    obtain ⟨_, hg2⟩ := last_assigned_some _ _ _ htg
    refine ⟨tg, htg, ?_⟩
    by_contra hlt
    exact hg2 k (by omega) hgk

set_option maxRecDepth 1000000 in
theorem fifo_frame_replacement_witness :
    (after demo_store (sweep 70)).number_of_free_frames = 0
      ∧ ∃ f s1, get_next_free_frame (after demo_store (sweep 70)) = some (f, s1)
        ∧ (∃ q : Nat, (after demo_store (sweep 70)).page_table[q]? = some f)
        ∧ (∃ tf, last_assigned (after demo_store (sweep 70)).assigned f = some tf
            ∧ ∀ (q : Nat) (g : Int),
                (after demo_store (sweep 70)).page_table[q]? = some g → g ≠ -1 →
                ∃ tg, last_assigned (after demo_store (sweep 70)).assigned g = some tg
                  ∧ tf ≤ tg)
        ∧ (∀ q : Nat, s1.page_table[q]? ≠ some f)
        ∧ (∀ (i : Nat) (e : tlb_entry), s1.tlb[i]? = some e → e.frame_number ≠ f) :=
  ⟨by decide,
    fifo_frame_replacement (after demo_store (sweep 70)) (reachable_after _ _) (by decide)⟩

/-- C3. Page-table injectivity: in every reachable state at most one page
number maps to a given frame number `f >= 0`; moreover, when
`get_next_free_frame` returns a frame (free or reclaimed), no page table entry
equals that frame any more, so the frame is unmapped before it is installed
for the faulting page. -/
theorem page_table_injective (s : VMState) (h : Reachable s) :
    (∀ (p q : Nat) (f : Int), 0 ≤ f →
        s.page_table[p]? = some f → s.page_table[q]? = some f → p = q)
      ∧ (∀ (f : Int) (s1 : VMState), get_next_free_frame s = some (f, s1) →
          ∀ q : Nat, s1.page_table[q]? ≠ some f) := by
  have hI := reachable_inv h
  refine ⟨fun p q f hf hp hq => hI.pt_inj p q f hp hq (by omega), ?_⟩
  intro f s1 hg
  rw [get_next_free_frame_eq hI] at hg
  simp only [Option.some.injEq, Prod.mk.injEq] at hg
  rw [← hg.1, ← hg.2]
  exact alloc_page_table_ne s

theorem page_table_injective_witness :
    Reachable (after demo_store (sweep 70))
      ∧ (∀ (p q : Nat) (f : Int), 0 ≤ f →
          (after demo_store (sweep 70)).page_table[p]? = some f →
          (after demo_store (sweep 70)).page_table[q]? = some f → p = q)
      ∧ (∀ (f : Int) (s1 : VMState),
          get_next_free_frame (after demo_store (sweep 70)) = some (f, s1) →
          ∀ q : Nat, s1.page_table[q]? ≠ some f) :=
  ⟨reachable_after _ _, page_table_injective _ (reachable_after _ _)⟩

/-- C4. TLB uniqueness: in every reachable state the tlb has `TLB_SIZE`
entries and, for every page number `p`, at most one index holds an entry with
`valid == 1` and `page_number == p`. -/
theorem tlb_unique (s : VMState) (h : Reachable s) :
    (s.tlb.length : Int) = TLB_SIZE
      ∧ ∀ (p : Int) (i j : Nat) (e1 e2 : tlb_entry),
          s.tlb[i]? = some e1 → e1.valid = 1 → e1.page_number = p →
          s.tlb[j]? = some e2 → e2.valid = 1 → e2.page_number = p → i = j := by
  have hI := reachable_inv h
  refine ⟨by rw [hI.tlb_len]; rfl, ?_⟩
  intro p i j e1 e2 h1 v1 p1 h2 v2 p2
  exact hI.tlb_uniq i j e1 e2 h1 h2 v1 v2 (by rw [p1, p2])

theorem tlb_unique_witness :
    Reachable (after demo_store (sweep 70))
      ∧ ((after demo_store (sweep 70)).tlb.length : Int) = TLB_SIZE
      ∧ ∀ (p : Int) (i j : Nat) (e1 e2 : tlb_entry),
          (after demo_store (sweep 70)).tlb[i]? = some e1 → e1.valid = 1 →
          e1.page_number = p →
          (after demo_store (sweep 70)).tlb[j]? = some e2 → e2.valid = 1 →
          e2.page_number = p → i = j :=
  ⟨reachable_after _ _, tlb_unique _ (reachable_after _ _)⟩

/-- C5. No stale TLB hits: in every reachable state every valid tlb entry
`(p, f)` satisfies `page_table[p] == f`; hence a hit of `check_tlb(p)` returns
the frame that the page table maps `p` to, and no other page is mapped to that
frame. -/
theorem no_stale_tlb (s : VMState) (h : Reachable s) :
    (∀ (i : Nat) (e : tlb_entry), s.tlb[i]? = some e → e.valid = 1 →
        readArr s.page_table e.page_number = some e.frame_number)
      ∧ (∀ p : Int, (check_tlb s p).1 ≠ -1 →
          readArr s.page_table p = some (check_tlb s p).1
            ∧ ∀ q : Nat, s.page_table[q]? = some (check_tlb s p).1 → (q : Int) = p) := by
  have hI := reachable_inv h
  constructor
  · intro i e hi hv
    obtain ⟨h0, hm, _⟩ := hI.tlb_valid i e hi hv
    rw [readArr_eq _ _ h0]
    exact hm
  · intro p hne
    cases hc : check_tlb_loop s.tlb p with
    | none =>
      unfold check_tlb at hne
      rw [hc] at hne
      exact absurd rfl hne
    | some f =>
      have hf : (check_tlb s p).1 = f := by
        unfold check_tlb
        rw [hc]
      obtain ⟨h0, hm, hf1⟩ := check_tlb_loop_frame hI p f hc
      rw [hf, readArr_eq _ _ h0]
      refine ⟨hm, ?_⟩
      intro q hq
      have := hI.pt_inj q p.toNat f hq hm hf1
      omega

theorem no_stale_tlb_witness :
    Reachable (after demo_store (sweep 70))
      ∧ (∀ (i : Nat) (e : tlb_entry),
          (after demo_store (sweep 70)).tlb[i]? = some e → e.valid = 1 →
          readArr (after demo_store (sweep 70)).page_table e.page_number
            = some e.frame_number)
      ∧ (∀ p : Int, (check_tlb (after demo_store (sweep 70)) p).1 ≠ -1 →
          readArr (after demo_store (sweep 70)).page_table p
              = some (check_tlb (after demo_store (sweep 70)) p).1
            ∧ ∀ q : Nat,
                (after demo_store (sweep 70)).page_table[q]?
                  = some (check_tlb (after demo_store (sweep 70)) p).1 → (q : Int) = p) :=
  ⟨reachable_after _ _, no_stale_tlb _ (reachable_after _ _)⟩

/-- C6 (the code departs from the claim). After the 17 pages `0 .. 16` have
been touched, page 0 is still mapped to frame 0 but its tlb entry has been
overwritten.  Translating address 7 (page 0) twice in a row then prints the
same byte twice, but the second translation is not a tlb hit: `check_tlb`
misses again and `tlb_hits` stays at 0, because the page-table-hit path never
calls `update_tlb`. -/
theorem repeated_translation_misses :
    (run demo_store initial (sweep 17 ++ [7, 7])).map
        (fun r => (r.1.drop 17, r.2.tlb_hits, r.2.page_faults))
      = some ([some (-93), some (-93)], 0, 17)
    ∧ readArr (after demo_store (sweep 17 ++ [7])).page_table (get_page_number 7) = some 0
    ∧ (check_tlb (after demo_store (sweep 17 ++ [7])) (get_page_number 7)).1 = -1
    ∧ (after demo_store (sweep 17 ++ [7, 7])).tlb_hits
        = (after demo_store (sweep 17 ++ [7])).tlb_hits := by
  set_option maxRecDepth 1000000 in decide

/-- C7 (the code departs from the claim). In the reachable state after the
pages `0 .. 16` have been touched, `check_tlb(0)` misses while
`page_table[0] == 0`; after the request for address 7 (page 0) has been
processed the tlb still has no valid entry for page 0: `check_tlb(0)` misses
again and the tlb is unchanged. -/
theorem page_table_hit_does_not_refill :
    (check_tlb (after demo_store (sweep 17)) 0).1 = -1
    ∧ readArr (after demo_store (sweep 17)).page_table 0 = some 0
    ∧ (check_tlb (after demo_store (sweep 17 ++ [7])) 0).1 = -1
    ∧ (after demo_store (sweep 17 ++ [7])).tlb = (after demo_store (sweep 17)).tlb := by
  set_option maxRecDepth 1000000 in decide

/-- C8 (the code departs from the claim). A backing-store failure does not
stop the request loop.  On a store truncated to two pages the request for
address 775 (page 3) meets an `fread` that delivers nothing; on an unseekable
store every `fseek` fails.  In both runs `check_page_table` returns `-1`,
`main` prints the indeterminate byte in front of the memory block (`none`) and
goes on with the next request.  A read that delivers only 100 of the 256 bytes
is not even noticed: the request for address 712 is served from the stale
remainder of `temp_frame`. -/
theorem backing_store_failure_not_fatal :
    (run short_store initial [775, 7]).map (fun r => (r.1, r.2.page_faults))
      = some ([none, some (-93)], 2)
    ∧ (run unseekable_store initial [7, 263]).map (fun r => (r.1, r.2.page_faults))
      = some ([none, none], 2)
    ∧ (run cut_store initial [712]).map (fun r => (r.1, r.2.page_faults))
      = some ([some 0], 1) := by
  set_option maxRecDepth 1000000 in decide

/-- C9 as stated fails: the address 65543 is not rejected; the request prints
the byte of address 7 and the loop goes on with the next request. -/
theorem out_of_range_not_rejected :
    (run demo_store initial [65543, 7]).map (fun r => r.1)
      = some [some (demo_store.byte 7), some (demo_store.byte 7)] := by
  set_option maxRecDepth 1000000 in decide

theorem translate_low_bits (bs : BackingStore) (s : VMState) (a : Int) :
    translate bs s a = translate bs s (a % 65536) := by
  have hp : get_page_number (a % 65536) = get_page_number a := by
    rw [get_page_number_eq, get_page_number_eq]
    omega
  have ho : get_offset (a % 65536) = get_offset a := by
    rw [get_offset_eq, get_offset_eq]
    omega
  unfold translate
  rw [hp, ho]

/-- C9 (amended). Out-of-range addresses are wrapped, not rejected: for every
logical address `a`, in particular for every `a >= 65536`, the decoded page
number is below `PAGE_TABLE_SIZE`, the request is processed exactly like the
address `a % 65536`, and with a readable backing store it prints the
backing-store byte at index `a % 65536` while the requests before and after it
are served as usual. -/
theorem out_of_range_wraps (bs : BackingStore) (hb : Readable bs) (pre post : List Int)
    (a : Int) :
    (0 ≤ get_page_number a ∧ get_page_number a < PAGE_TABLE_SIZE)
      ∧ (∀ s, translate bs s a = translate bs s (a % 65536))
      ∧ ∃ s, run bs initial (pre ++ a :: post)
          = some (pre.map
                (fun b => some (bs.byte (get_page_number b * 256 + get_offset b).toNat))
              ++ some (bs.byte (a % 65536).toNat)
                :: post.map
                  (fun b => some (bs.byte (get_page_number b * 256 + get_offset b).toNat)),
            s) := by
  refine ⟨get_page_number_range a, fun s => translate_low_bits bs s a, ?_⟩
  obtain ⟨s, hs, _⟩ := run_readable hb (pre ++ a :: post) initial inv_initial
    (mem_inv_initial bs)
  refine ⟨s, ?_⟩
  have hidx : get_page_number a * 256 + get_offset a = a % 65536 := by
    rw [get_page_number_eq, get_offset_eq]
    omega
  rw [hs, List.map_append, List.map_cons, hidx]

theorem out_of_range_wraps_witness :
    Readable demo_store
      ∧ (0 ≤ get_page_number 65543 ∧ get_page_number 65543 < PAGE_TABLE_SIZE)
      ∧ (∀ s, translate demo_store s 65543 = translate demo_store s (65543 % 65536))
      ∧ ∃ s, run demo_store initial ([300] ++ 65543 :: [7])
          = some ([300].map
                (fun b =>
                  some (demo_store.byte (get_page_number b * 256 + get_offset b).toNat))
              ++ some (demo_store.byte ((65543 : Int) % 65536).toNat)
                :: [7].map
                  (fun b =>
                    some (demo_store.byte (get_page_number b * 256 + get_offset b).toNat)),
            s) :=
  ⟨demo_readable, out_of_range_wraps demo_store demo_readable [300] [7] 65543⟩

/-! ## Fault counting -/

theorem fault_page_faults (bs : BackingStore) (s : VMState) (p : Int) :
    (fault_state bs s p).page_faults = s.page_faults + 1 := rfl

theorem fault_tlb_hits (bs : BackingStore) (s : VMState) (p : Int) :
    (fault_state bs s p).tlb_hits = s.tlb_hits := rfl

/-- One loop iteration with a readable backing store while the pages touched
so far (`S`) and the requested page still fit into the free frames: the page
faults iff it was not touched before. -/
theorem translate_count {bs : BackingStore} (hb : Readable bs) {s : VMState} (h : Inv s)
    (S : Finset Int)
    (hS : ∀ q : Nat, q < 256 → (s.page_table[q]? = some (-1) ↔ (q : Int) ∉ S))
    (hf : s.page_faults = (S.card : Int)) (ha : s.assigned.length = S.card)
    (a : Int) (hc : (insert (get_page_number a) S).card ≤ 64) :
    ∃ v s1, translate bs s a = some (v, s1) ∧ Inv s1
      ∧ (∀ q : Nat, q < 256 →
          (s1.page_table[q]? = some (-1) ↔ (q : Int) ∉ insert (get_page_number a) S))
      ∧ s1.page_faults = ((insert (get_page_number a) S).card : Int)
      ∧ s1.assigned.length = (insert (get_page_number a) S).card := by
  have hp := get_page_number_range a
  have hpq : ((get_page_number a).toNat : Int) = get_page_number a := by omega
  obtain ⟨x, hx⟩ := page_table_entry h _ hp
  by_cases hmem : get_page_number a ∈ S
  · -- touched before: still mapped, so no fault
    have hx1 : x ≠ -1 := by
      intro e
      rw [e] at hx
      have := (hS (get_page_number a).toNat (by omega)).1 hx
      rw [hpq] at this
      exact this hmem
    rw [Finset.insert_eq_of_mem hmem]
    cases hcl : check_tlb_loop s.tlb (get_page_number a) with
    | some f =>
      have hf1 := (check_tlb_loop_frame h _ _ hcl).2.2
      exact ⟨_, _, translate_hit bs s a f hcl hf1,
        inv_of_fields h rfl rfl h.tmp_len rfl rfl rfl rfl rfl, hS, hf, ha⟩
    | none =>
      rw [translate_miss bs s a hcl, check_page_table_mapped bs s _ x hp.1 hx hx1]
      exact ⟨_, _, rfl, h, hS, hf, ha⟩
  · -- first touch: the page is unmapped and absent from the tlb
    have hx1 : s.page_table[(get_page_number a).toNat]? = some (-1) := by
      apply (hS (get_page_number a).toNat (by omega)).2
      rw [hpq]
      exact hmem
    have hcl : check_tlb_loop s.tlb (get_page_number a) = none := by
      cases hcl : check_tlb_loop s.tlb (get_page_number a) with
      | none => rfl
      | some f =>
        obtain ⟨_, hm, hf1⟩ := check_tlb_loop_frame h _ _ hcl
        rw [hx1] at hm
        simp only [Option.some.injEq] at hm
        exact absurd hm.symm hf1
    have hseek := hb.2.1 (get_page_number a * PAGE_SIZE)
    have hread : (fread bs (get_page_number a * PAGE_SIZE)).length ≠ 0 := by
      rw [fread_readable hb _ hp]
      simp
    have hcard : (insert (get_page_number a) S).card = S.card + 1 :=
      Finset.card_insert_of_not_mem hmem
    have hn : s.assigned.length < 64 := by omega
    have hr := next_frame_range s
    rw [translate_miss bs s a hcl, check_page_table_fault h bs _ hp hx1 hseek hread]
    refine ⟨_, _, rfl, inv_fault h bs _ hp hx1, ?_, ?_, ?_⟩
    · intro q hq
      show (fault_state bs s (get_page_number a)).page_table[q]? = _ ↔ _
      rw [fault_page_table, clear_frame_unmapped h hn, List.getElem?_set, Finset.mem_insert]
      by_cases hqp : (get_page_number a).toNat = q
      · rw [if_pos hqp, if_pos (by rw [h.pt_len]; omega)]
        constructor
        · intro e
          simp only [Option.some.injEq] at e
          omega
        · intro e
          exact absurd (Or.inl (by omega)) e
      · rw [if_neg hqp, hS q hq]
        constructor
        · intro e1 e2
          rcases e2 with e2 | e2
          · omega
          · exact e1 e2
        · intro e1 e2
          exact e1 (Or.inr e2)
    · rw [hcard, fault_page_faults, hf]
      push_cast
      rfl
    · rw [hcard, fault_assigned_length, ha]

theorem run_count {bs : BackingStore} (hb : Readable bs) (reqs : List Int) :
    ∀ (s : VMState) (S : Finset Int), Inv s →
      (∀ q : Nat, q < 256 → (s.page_table[q]? = some (-1) ↔ (q : Int) ∉ S)) →
      s.page_faults = (S.card : Int) → s.assigned.length = S.card →
      (S ∪ (reqs.map get_page_number).toFinset).card ≤ 64 →
      ∃ r, run bs s reqs = some r
        ∧ r.2.page_faults = ((S ∪ (reqs.map get_page_number).toFinset).card : Int) := by
  induction reqs with
  | nil =>
    intro s S _ _ hf _ _
    exact ⟨([], s), rfl, by simpa using hf⟩
  | cons a rest ih =>
    intro s S h hS hf ha hc
    have hunion : S ∪ ((a :: rest).map get_page_number).toFinset
        = insert (get_page_number a) S ∪ (rest.map get_page_number).toFinset := by
      simp only [List.map_cons, List.toFinset_cons, Finset.union_insert, Finset.insert_union]
    rw [hunion] at hc ⊢
    have hc1 : (insert (get_page_number a) S).card ≤ 64 :=
      le_trans (Finset.card_le_card Finset.subset_union_left) hc
    obtain ⟨v, s1, he, hi, hS1, hf1, ha1⟩ := translate_count hb h S hS hf ha a hc1
    obtain ⟨r, hr, hres⟩ := ih s1 _ hi hS1 hf1 ha1 hc
    refine ⟨(v :: r.1, r.2), ?_, hres⟩
    simp only [run, he, hr]

theorem translate_fault {s : VMState} (h : Inv s) (bs : BackingStore) (a : Int)
    (hc : check_tlb_loop s.tlb (get_page_number a) = none)
    (hpt : s.page_table[(get_page_number a).toNat]? = some (-1))
    (hseek : bs.fseek_ok (get_page_number a * PAGE_SIZE) = true)
    (hread : (fread bs (get_page_number a * PAGE_SIZE)).length ≠ 0) :
    translate bs s a
      = some ((fault_state bs s (get_page_number a)).physical_memory
            (next_frame s * FRAME_SIZE + get_offset a),
          fault_state bs s (get_page_number a)) := by
  rw [translate_miss bs s a hc,
    check_page_table_fault h bs _ (get_page_number_range a) hpt hseek hread]

theorem fread_nonempty {bs : BackingStore} (hb : Readable bs) (a : Int) :
    (fread bs (get_page_number a * PAGE_SIZE)).length ≠ 0 := by
  rw [fread_readable hb _ (get_page_number_range a)]
  simp

set_option maxRecDepth 100000 in
theorem scenario_5565 {bs : BackingStore} (hb : Readable bs) (a1 a2 a3 a4 : Int)
    (h1 : get_page_number a1 = 5) (h2 : get_page_number a2 = 5)
    (h3 : get_page_number a3 = 6) (h4 : get_page_number a4 = 5) :
    ∃ v1 v2 v3 v4 s1 s2 s3 s4,
      translate bs initial a1 = some (v1, s1) ∧ translate bs s1 a2 = some (v2, s2)
        ∧ translate bs s2 a3 = some (v3, s3) ∧ translate bs s3 a4 = some (v4, s4)
        ∧ s1.tlb_hits = initial.tlb_hits ∧ s2.tlb_hits = s1.tlb_hits + 1
        ∧ s3.tlb_hits = s2.tlb_hits ∧ s4.tlb_hits = s3.tlb_hits + 1
        ∧ s4.page_faults = 2 := by
  -- first request: page 5 faults into frame 0
  have e1 := translate_fault inv_initial bs a1 (by rw [h1]; decide) (by rw [h1]; decide)
    (hb.2.1 _) (fread_nonempty hb a1)
  have i1 := inv_fault inv_initial bs (get_page_number a1) (get_page_number_range a1)
    (by rw [h1]; decide)
  rw [h1] at e1 i1
  -- second request: tlb hit
  have e2 := translate_hit bs (fault_state bs initial 5) a2 0 (by rw [h2]; rfl) (by decide)
  have i2 : Inv { fault_state bs initial 5 with
      tlb_hits := (fault_state bs initial 5).tlb_hits + 1 } :=
    inv_of_fields i1 rfl rfl i1.tmp_len rfl rfl rfl rfl rfl
  -- third request: page 6 faults into frame 1
  have e3 := translate_fault i2 bs a3 (by rw [h3]; rfl) (by rw [h3]; rfl)
    (hb.2.1 _) (fread_nonempty hb a3)
  rw [h3] at e3
  -- fourth request: tlb hit on the entry of page 5
  have e4 := translate_hit bs (fault_state bs { fault_state bs initial 5 with
      tlb_hits := (fault_state bs initial 5).tlb_hits + 1 } 6) a4 0 (by rw [h4]; rfl) (by decide)
  exact ⟨_, _, _, _, _, _, _, _, e1, e2, e3, e4, rfl, rfl, rfl, rfl, rfl⟩

/-- C10. Fault counting without replacement pressure: with a readable backing
store, a request sequence that touches at most `NUMBER_OF_FRAMES` (64)
distinct page numbers runs to completion from the initial state with
`page_faults` equal to the number of distinct page numbers; for requests in the
pages `[5, 5, 6, 5]` there are exactly 2 page faults and `tlb_hits` is
incremented on exactly the 2nd and the 4th request. -/
theorem fault_counting (bs : BackingStore) (hb : Readable bs) :
    (∀ reqs : List Int, (reqs.map get_page_number).dedup.length ≤ 64 →
        ∃ r, run bs initial reqs = some r
          ∧ r.2.page_faults = (((reqs.map get_page_number).dedup.length : Nat) : Int))
      ∧ (∀ a1 a2 a3 a4 : Int, get_page_number a1 = 5 → get_page_number a2 = 5 →
          get_page_number a3 = 6 → get_page_number a4 = 5 →
          ∃ v1 v2 v3 v4 s1 s2 s3 s4,
            translate bs initial a1 = some (v1, s1) ∧ translate bs s1 a2 = some (v2, s2)
              ∧ translate bs s2 a3 = some (v3, s3) ∧ translate bs s3 a4 = some (v4, s4)
              ∧ s1.tlb_hits = initial.tlb_hits ∧ s2.tlb_hits = s1.tlb_hits + 1
              ∧ s3.tlb_hits = s2.tlb_hits ∧ s4.tlb_hits = s3.tlb_hits + 1
              ∧ s4.page_faults = 2) := by
  refine ⟨?_, fun a1 a2 a3 a4 => scenario_5565 hb a1 a2 a3 a4⟩
  intro reqs hd
  have hcard : (reqs.map get_page_number).toFinset.card
      = (reqs.map get_page_number).dedup.length := List.card_toFinset _
  have hpt : ∀ q : Nat, q < 256 →
      (initial.page_table[q]? = some (-1) ↔ (q : Int) ∉ (∅ : Finset Int)) := by
    intro q hq
    rw [initial_page_table, List.getElem?_replicate, if_pos hq]
    simp
  obtain ⟨r, hr, hres⟩ := run_count hb reqs initial ∅ inv_initial hpt rfl rfl
    (by rw [Finset.empty_union, hcard]; exact hd)
  refine ⟨r, hr, ?_⟩
  rw [hres, Finset.empty_union, hcard]

set_option maxRecDepth 1000000 in
theorem fault_counting_witness :
    Readable demo_store
      ∧ ((sweep 64 ++ sweep 9).map get_page_number).dedup.length ≤ 64
      ∧ (∃ r, run demo_store initial (sweep 64 ++ sweep 9) = some r
          ∧ r.2.page_faults
            = ((((sweep 64 ++ sweep 9).map get_page_number).dedup.length : Nat) : Int))
      ∧ (get_page_number 1283 = 5 ∧ get_page_number 1535 = 5
          ∧ get_page_number 1536 = 6 ∧ get_page_number 1280 = 5)
      ∧ ∃ v1 v2 v3 v4 s1 s2 s3 s4,
          translate demo_store initial 1283 = some (v1, s1)
            ∧ translate demo_store s1 1535 = some (v2, s2)
            ∧ translate demo_store s2 1536 = some (v3, s3)
            ∧ translate demo_store s3 1280 = some (v4, s4)
            ∧ s1.tlb_hits = initial.tlb_hits ∧ s2.tlb_hits = s1.tlb_hits + 1
            ∧ s3.tlb_hits = s2.tlb_hits ∧ s4.tlb_hits = s3.tlb_hits + 1
            ∧ s4.page_faults = 2 :=
  ⟨demo_readable, by decide,
    (fault_counting demo_store demo_readable).1 (sweep 64 ++ sweep 9) (by decide),
    by decide,
    (fault_counting demo_store demo_readable).2 1283 1535 1536 1280
      (by decide) (by decide) (by decide) (by decide)⟩

theorem and_low16 (n : Nat) : n &&& 0xFFFF = n % 65536 := by
  have h1 : (0xFFFF : Nat) = 2 ^ 16 - 1 := by decide
  rw [h1, Nat.and_pow_two_sub_one_eq_mod]

theorem update_tlb_eq (s : VMState) (p f : Int) (c : Nat)
    (hc : c < s.tlb.length) (hlen : s.tlb.length = 16) (hidx : s.next_free_tlb_index = (c : Int)) :
    update_tlb s p f = some { s with
      tlb := s.tlb.set c ⟨p, f, 1⟩
      next_free_tlb_index := (((c + 1) % 16 : Nat) : Int) } := by
  have c1 : 0 ≤ s.next_free_tlb_index ∧ s.next_free_tlb_index.toNat < s.tlb.length := by
    rw [hidx]
    omega
  have c2 : Int.tmod (s.next_free_tlb_index + 1) TLB_SIZE = (((c + 1) % 16 : Nat) : Int) := by
    rw [Int.tmod_eq_emod (by omega) (by decide), hidx]
    unfold TLB_SIZE
    omega
  have c3 : s.next_free_tlb_index.toNat = c := by rw [hidx]; omega
  unfold update_tlb writeArr
  rw [if_pos c1]
  simp only [c2, c3]

theorem update_tlb_all_append (s : VMState) (xs ys : List (Int × Int)) :
    update_tlb_all s (xs ++ ys)
      = match update_tlb_all s xs with
        | none => none
        | some s1 => update_tlb_all s1 ys := by
  induction xs generalizing s with
  | nil => rfl
  | cons x xs ih =>
    obtain ⟨p, f⟩ := x
    simp only [List.cons_append, update_tlb_all]
    cases update_tlb s p f with
    | none => rfl
    | some s1 => exact ih s1

/-- Filling the ring: with the cursor at the end of the part `A` already
written, the next `es.length` insertions land in the following slots. -/
theorem update_tlb_all_fill (es : List (Int × Int)) :
    ∀ (s : VMState) (A B : List tlb_entry), s.tlb = A ++ B → s.tlb.length = 16 →
      s.next_free_tlb_index = (((A.length % 16 : Nat)) : Int) → es.length ≤ B.length →
      ∃ s1, update_tlb_all s es = some s1
        ∧ s1.tlb = A ++ es.map entry_of ++ B.drop es.length
        ∧ s1.next_free_tlb_index = ((((A.length + es.length) % 16 : Nat)) : Int)
        ∧ s1.tlb_hits = s.tlb_hits := by
  induction es with
  | nil =>
    intro s A B ht _ hi _
    exact ⟨s, rfl, by simpa using ht, by simpa using hi, rfl⟩
  | cons e es ih =>
    intro s A B ht hl hi hle
    obtain ⟨p, f⟩ := e
    cases B with
    | nil => simp at hle
    | cons b B =>
      have hA : A.length < 16 := by
        rw [ht, List.length_append, List.length_cons] at hl
        omega
      have hidx : s.next_free_tlb_index = (A.length : Int) := by
        rw [hi]
        omega
      have hu := update_tlb_eq s p f A.length (by omega) hl hidx
      have hset : s.tlb.set A.length ⟨p, f, 1⟩ = (A ++ [entry_of (p, f)]) ++ B := by
        rw [ht, List.set_append_right _ _ (Nat.le_refl _)]
        simp [entry_of]
      obtain ⟨s1, h1, h2, h3, h4⟩ := ih
        { s with
          tlb := s.tlb.set A.length ⟨p, f, 1⟩
          next_free_tlb_index := (((A.length + 1) % 16 : Nat) : Int) }
        (A ++ [entry_of (p, f)]) B hset
        (by show (s.tlb.set A.length _).length = 16; rw [List.length_set]; exact hl)
        (by show (((A.length + 1) % 16 : Nat) : Int) = _; simp)
        (by simpa using hle)
      refine ⟨s1, ?_, ?_, ?_, h4⟩
      · simp only [update_tlb_all, hu]
        exact h1
      · rw [h2]
        simp
      · rw [h3]
        simp [Nat.add_assoc, Nat.add_comm 1]

/-- Lookup in a tlb whose entries are all valid and carry distinct pages. -/
theorem check_tlb_loop_entries (Q : List (Int × Int)) (hnd : (Q.map Prod.fst).Nodup) :
    (∀ p f, (p, f) ∈ Q → check_tlb_loop (Q.map entry_of) p = some f)
      ∧ (∀ p, p ∉ Q.map Prod.fst → check_tlb_loop (Q.map entry_of) p = none) := by
  induction Q with
  | nil => exact ⟨fun p f h => by simp at h, fun p _ => rfl⟩
  | cons q Q ih =>
    obtain ⟨q1, q2⟩ := q
    rw [List.map_cons, List.nodup_cons] at hnd
    obtain ⟨ih1, ih2⟩ := ih hnd.2
    constructor
    · intro p f hm
      rw [List.mem_cons] at hm
      rcases hm with hm | hm
      · simp only [Prod.mk.injEq] at hm
        simp [check_tlb_loop, entry_of, hm.1, hm.2]
      · have hne : q1 ≠ p := by
          intro e
          apply hnd.1
          rw [e]
          exact List.mem_map.2 ⟨(p, f), hm, rfl⟩
        simp only [List.map_cons, check_tlb_loop, entry_of, hne, false_and, if_false]
        exact ih1 p f hm
    · intro p hp
      simp only [List.map_cons, List.mem_cons, not_or] at hp
      have hne : q1 ≠ p := fun e => hp.1 e.symm
      simp only [List.map_cons, check_tlb_loop, entry_of, hne, false_and, if_false]
      exact ih2 p hp.2

theorem check_tlb_of_loop_some (s : VMState) (p f : Int)
    (h : check_tlb_loop s.tlb p = some f) :
    (check_tlb s p).1 = f ∧ (check_tlb s p).2.tlb_hits = s.tlb_hits + 1 := by
  unfold check_tlb
  rw [h]
  exact ⟨rfl, rfl⟩

theorem check_tlb_of_loop_none (s : VMState) (p : Int)
    (h : check_tlb_loop s.tlb p = none) :
    (check_tlb s p).1 = -1 ∧ (check_tlb s p).2.tlb_hits = s.tlb_hits := by
  unfold check_tlb
  rw [h]
  exact ⟨rfl, rfl⟩

/-- C11. FIFO TLB eviction: for every list of `TLB_SIZE + 1 = 17` pairs
`(p_i, f_i)` with pairwise distinct page numbers, `flush_tlb()` followed by
`update_tlb(p_i, f_i)` for `i = 0 .. 16` in order leaves a tlb in which
`check_tlb(p_0)` misses (returns `-1`, no hit counted) and `check_tlb(p_i)`
returns `f_i` for every `i` in `1 .. 16`. -/
theorem fifo_tlb_eviction (s : VMState) (hl : s.tlb.length = 16) (pf : List (Int × Int))
    (hlen : pf.length = 17) (hnd : (pf.map Prod.fst).Nodup) :
    ∃ s1, update_tlb_all (flush_tlb s) pf = some s1
      ∧ (∀ p f, pf[0]? = some (p, f) →
          (check_tlb s1 p).1 = -1 ∧ (check_tlb s1 p).2.tlb_hits = s1.tlb_hits)
      ∧ (∀ (i : Nat) (p f : Int), 1 ≤ i → pf[i]? = some (p, f) → (check_tlb s1 p).1 = f) := by
  cases pf with
  | nil => simp at hlen
  | cons e0 rest =>
    rcases List.eq_nil_or_concat rest with h | ⟨mid, el, h⟩
    · subst h
      simp at hlen
    · rw [List.concat_eq_append] at h
      subst h
      have hmid : mid.length = 15 := by
        simp only [List.length_cons, List.length_append, List.length_nil] at hlen
        omega
      -- the first 16 insertions fill the flushed tlb
      obtain ⟨s16, h1, h2, h3, _⟩ := update_tlb_all_fill (e0 :: mid) (flush_tlb s) []
        (s.tlb.map (fun _ => ⟨-1, -1, -1⟩)) rfl
        (by show (s.tlb.map _).length = 16; rw [List.length_map]; exact hl) rfl
        (by rw [List.length_map, hl, List.length_cons, hmid])
      have hdrop : (s.tlb.map (fun _ => (⟨-1, -1, -1⟩ : tlb_entry))).drop (e0 :: mid).length
          = [] :=
        List.drop_of_length_le (by rw [List.length_map, hl, List.length_cons, hmid])
      rw [hdrop, List.append_nil, List.nil_append] at h2
      have hi16 : s16.next_free_tlb_index = ((0 : Nat) : Int) := by
        rw [h3, List.length_nil, List.length_cons, hmid]
      -- the 17th insertion overwrites slot 0
      obtain ⟨pl, fl⟩ := el
      have hu := update_tlb_eq s16 pl fl 0 (by rw [h2]; simp) (by rw [h2]; simp [hmid]) hi16
      have hrun : update_tlb_all (flush_tlb s) (e0 :: (mid ++ [(pl, fl)])) = some
          { s16 with
            tlb := s16.tlb.set 0 ⟨pl, fl, 1⟩
            next_free_tlb_index := (((0 + 1) % 16 : Nat) : Int) } := by
        have happ : e0 :: (mid ++ [(pl, fl)]) = (e0 :: mid) ++ [(pl, fl)] := rfl
        rw [happ, update_tlb_all_append, h1]
        simp only [update_tlb_all, hu]
      have htlb : s16.tlb.set 0 ⟨pl, fl, 1⟩ = ((pl, fl) :: mid).map entry_of := by
        rw [h2]
        rfl
      -- the pages in the final tlb are pairwise distinct
      rw [List.map_cons, List.nodup_cons, List.map_append] at hnd
      have hq : ((((pl, fl) :: mid) : List (Int × Int)).map Prod.fst).Nodup := by
        have := List.nodup_append_comm.1 hnd.2
        simpa using this
      obtain ⟨hfound, hmissing⟩ := check_tlb_loop_entries ((pl, fl) :: mid) hq
      refine ⟨_, hrun, ?_, ?_⟩
      · intro p f h0
        simp only [List.getElem?_cons_zero, Option.some.injEq] at h0
        apply check_tlb_of_loop_none
        show check_tlb_loop (s16.tlb.set 0 ⟨pl, fl, 1⟩) p = none
        rw [htlb]
        apply hmissing
        intro hmem
        apply hnd.1
        rw [h0]
        simp only [List.map_cons, List.mem_cons, List.mem_append, List.map_nil,
          List.not_mem_nil, or_false] at hmem ⊢
        exact hmem.symm
      · intro i p f hi hget
        have hmem : (p, f) ∈ (pl, fl) :: mid := by
          cases i with
          | zero => omega
          | succ k =>
            rw [List.getElem?_cons_succ] at hget
            have := List.getElem?_mem hget
            simp only [List.mem_append, List.mem_cons, List.not_mem_nil, or_false] at this ⊢
            exact this.symm
        have := (check_tlb_of_loop_some
          { s16 with
            tlb := s16.tlb.set 0 ⟨pl, fl, 1⟩
            next_free_tlb_index := (((0 + 1) % 16 : Nat) : Int) } p f
          (by show check_tlb_loop (s16.tlb.set 0 ⟨pl, fl, 1⟩) p = some f
              rw [htlb]
              exact hfound p f hmem)).1
        exact this

theorem fifo_tlb_eviction_witness :
    initial.tlb.length = 16
      ∧ ((List.range 17).map (fun i => ((i : Int) + 40, (i : Int) % 64))).length = 17
      ∧ (((List.range 17).map (fun i => ((i : Int) + 40, (i : Int) % 64))).map Prod.fst).Nodup
      ∧ ∃ s1, update_tlb_all (flush_tlb initial)
            ((List.range 17).map (fun i => ((i : Int) + 40, (i : Int) % 64))) = some s1
          ∧ (∀ p f, ((List.range 17).map (fun i => ((i : Int) + 40, (i : Int) % 64)))[0]?
                = some (p, f) →
              (check_tlb s1 p).1 = -1 ∧ (check_tlb s1 p).2.tlb_hits = s1.tlb_hits)
          ∧ (∀ (i : Nat) (p f : Int), 1 ≤ i →
              ((List.range 17).map (fun i => ((i : Int) + 40, (i : Int) % 64)))[i]?
                = some (p, f) → (check_tlb s1 p).1 = f) :=
  ⟨by decide, by decide, by decide,
    fifo_tlb_eviction initial (by decide) _ (by decide) (by decide)⟩

/-- C14. TLB insert touches only the cursor slot: for every state whose tlb
has `TLB_SIZE` entries and whose cursor `next_free_tlb_index` is `c` in
`[0, 16)`, `update_tlb(p, f)` sets `tlb[c]` to `(p, f, valid = 1)` whatever the
slot held before, leaves every other slot and `tlb_hits` (and all other
variables) unchanged, and sets the cursor to `(c + 1) mod 16`. -/
theorem update_tlb_cursor_slot (s : VMState) (p f : Int) (c : Nat) (hc : c < 16)
    (hlen : s.tlb.length = 16) (hidx : s.next_free_tlb_index = (c : Int)) :
    ∃ s1, update_tlb s p f = some s1
      ∧ s1.tlb[c]? = some ⟨p, f, 1⟩
      ∧ (∀ i : Nat, i ≠ c → s1.tlb[i]? = s.tlb[i]?)
      ∧ s1.tlb.length = 16
      ∧ s1.tlb_hits = s.tlb_hits
      ∧ s1.next_free_tlb_index = (((c + 1) % 16 : Nat) : Int)
      ∧ s1.page_table = s.page_table ∧ s1.page_faults = s.page_faults
      ∧ s1.free_frame_list = s.free_frame_list
      ∧ s1.number_of_free_frames = s.number_of_free_frames
      ∧ s1.next_fifo_frame = s.next_fifo_frame ∧ s1.temp_frame = s.temp_frame
      ∧ s1.physical_memory = s.physical_memory := by
  refine ⟨_, update_tlb_eq s p f c (by omega) hlen hidx, ?_, ?_, ?_, rfl, rfl, rfl, rfl, rfl,
    rfl, rfl, rfl, rfl⟩
  · show (s.tlb.set c ⟨p, f, 1⟩)[c]? = _
    rw [List.getElem?_set, if_pos rfl, if_pos (by omega)]
  · intro i hi
    show (s.tlb.set c ⟨p, f, 1⟩)[i]? = _
    rw [List.getElem?_set, if_neg (fun e => hi e.symm)]
  · show (s.tlb.set c ⟨p, f, 1⟩).length = 16
    rw [List.length_set, hlen]

theorem update_tlb_cursor_slot_witness :
    (15 : Nat) < 16 ∧ (after demo_store (sweep 15)).tlb.length = 16
      ∧ (after demo_store (sweep 15)).next_free_tlb_index = ((15 : Nat) : Int)
      ∧ ∃ s1, update_tlb (after demo_store (sweep 15)) 200 3 = some s1
        ∧ s1.tlb[15]? = some ⟨200, 3, 1⟩
        ∧ (∀ i : Nat, i ≠ 15 → s1.tlb[i]? = (after demo_store (sweep 15)).tlb[i]?)
        ∧ s1.tlb.length = 16
        ∧ s1.tlb_hits = (after demo_store (sweep 15)).tlb_hits
        ∧ s1.next_free_tlb_index = (((15 + 1) % 16 : Nat) : Int)
        ∧ s1.page_table = (after demo_store (sweep 15)).page_table
        ∧ s1.page_faults = (after demo_store (sweep 15)).page_faults
        ∧ s1.free_frame_list = (after demo_store (sweep 15)).free_frame_list
        ∧ s1.number_of_free_frames = (after demo_store (sweep 15)).number_of_free_frames
        ∧ s1.next_fifo_frame = (after demo_store (sweep 15)).next_fifo_frame
        ∧ s1.temp_frame = (after demo_store (sweep 15)).temp_frame
        ∧ s1.physical_memory = (after demo_store (sweep 15)).physical_memory := by
  set_option maxRecDepth 1000000 in
  exact ⟨by decide, by decide, by decide,
    update_tlb_cursor_slot (after demo_store (sweep 15)) 200 3 15 (by decide) (by decide)
      (by decide)⟩

/-! ## First touch of a page -/

theorem check_tlb_loop_unmapped {s : VMState} (h : Inv s) (p : Int)
    (hpt : s.page_table[p.toNat]? = some (-1)) : check_tlb_loop s.tlb p = none := by
  cases hcl : check_tlb_loop s.tlb p with
  | none => rfl
  | some f =>
    obtain ⟨_, hm, hf1⟩ := check_tlb_loop_frame h _ _ hcl
    rw [hpt] at hm
    simp only [Option.some.injEq] at hm
    exact absurd hm.symm hf1

theorem check_tlb_loop_after_fault {s : VMState} (h : Inv s) (bs : BackingStore) (p : Int)
    (hp : 0 ≤ p ∧ p < 256) (hpt : s.page_table[p.toNat]? = some (-1)) :
    check_tlb_loop (fault_state bs s p).tlb p = some (next_frame s) := by
  have hI := inv_fault h bs p hp hpt
  have hidx := h.tlb_idx
  have hentry : (fault_state bs s p).tlb[s.next_free_tlb_index.toNat]?
      = some ⟨p, next_frame s, 1⟩ := by
    rw [fault_tlb]
    exact set_map_self _ _ _ _ (by rw [h.tlb_len]; omega)
  have hself : (fault_state bs s p).page_table[p.toNat]? = some (next_frame s) := by
    rw [fault_page_table]
    exact set_map_self _ _ _ _ (by rw [h.pt_len]; omega)
  cases hcl : check_tlb_loop (fault_state bs s p).tlb p with
  | none => exact absurd ⟨rfl, rfl⟩ (check_tlb_loop_none _ _ hcl _ _ hentry)
  | some f =>
    obtain ⟨_, hm, _⟩ := check_tlb_loop_frame hI _ _ hcl
    rw [hself] at hm
    exact hm.symm

theorem shift_or_address (p o : Nat) (ho : o < 256) : p <<< 8 ||| o = p * 256 + o := by
  rw [Nat.shiftLeft_eq]
  have := Nat.mul_add_lt_is_or (i := 8) (by simpa using ho) p
  rw [Nat.mul_comm] at this
  exact this.symm

/-- C12. First-touch scenario: for every page number `p` and offset `o` in
`[0, 256)` and every readable backing store, translating the address
`(p << 8) | o` in the initial state records exactly 1 page fault and 0 tlb
hits and prints the backing-store byte at `p * 256 + o`; translating the same
address again records no further page fault and exactly 1 tlb hit and prints
the same byte. -/
theorem first_touch (bs : BackingStore) (hb : Readable bs) (p o : Nat) (hp : p < 256)
    (ho : o < 256) :
    initial.page_faults = 0 ∧ initial.tlb_hits = 0
      ∧ ∃ s1 s2,
          translate bs initial ((p <<< 8 ||| o : Nat) : Int)
              = some (some (bs.byte (p * 256 + o)), s1)
            ∧ s1.page_faults = 1 ∧ s1.tlb_hits = 0
            ∧ translate bs s1 ((p <<< 8 ||| o : Nat) : Int)
              = some (some (bs.byte (p * 256 + o)), s2)
            ∧ s2.page_faults = 1 ∧ s2.tlb_hits = 1 := by
  refine ⟨rfl, rfl, ?_⟩
  rw [shift_or_address p o ho]
  have hpn : get_page_number ((p * 256 + o : Nat) : Int) = (p : Int) := by
    rw [get_page_number_eq]
    omega
  have hon : get_offset ((p * 256 + o : Nat) : Int) = (o : Int) := by
    rw [get_offset_eq]
    omega
  have hpr : (0 : Int) ≤ p ∧ (p : Int) < 256 := by omega
  have hpt : initial.page_table[(p : Int).toNat]? = some (-1) := by
    rw [initial_page_table, List.getElem?_replicate, if_pos (by omega)]
  have hr := next_frame_range initial
  have hI := inv_fault inv_initial bs p hpr hpt
  have hM := mem_inv_fault hb (mem_inv_initial bs) (p : Int) hpr
  have hself : (fault_state bs initial p).page_table[(p : Int).toNat]?
      = some (next_frame initial) := by
    rw [fault_page_table]
    exact set_map_self _ _ _ _ (by rw [inv_initial.pt_len]; omega)
  have hval : (fault_state bs initial p).physical_memory
      (next_frame initial * FRAME_SIZE + (o : Int)) = some (bs.byte (p * 256 + o)) := by
    rw [hM _ _ hself (by omega) (o : Int) (by omega) (by omega)]
    simp
  have e1 := translate_fault inv_initial bs ((p * 256 + o : Nat) : Int)
    (by rw [hpn]; exact check_tlb_loop_unmapped inv_initial _ hpt) (by rw [hpn]; exact hpt)
    (hb.2.1 _) (fread_nonempty hb _)
  rw [hpn, hon, hval] at e1
  have e2 := translate_hit bs (fault_state bs initial p) ((p * 256 + o : Nat) : Int)
    (next_frame initial)
    (by rw [hpn]; exact check_tlb_loop_after_fault inv_initial bs p hpr hpt) (by omega)
  rw [hon, hval] at e2
  exact ⟨_, _, e1, rfl, rfl, e2, rfl, rfl⟩

theorem first_touch_witness :
    Readable store42 ∧ (1 : Nat) < 256 ∧ (10 : Nat) < 256 ∧ store42.byte (1 * 256 + 10) = 42
      ∧ initial.page_faults = 0 ∧ initial.tlb_hits = 0
      ∧ ∃ s1 s2,
          translate store42 initial ((1 <<< 8 ||| 10 : Nat) : Int)
              = some (some (store42.byte (1 * 256 + 10)), s1)
            ∧ s1.page_faults = 1 ∧ s1.tlb_hits = 0
            ∧ translate store42 s1 ((1 <<< 8 ||| 10 : Nat) : Int)
              = some (some (store42.byte (1 * 256 + 10)), s2)
            ∧ s2.page_faults = 1 ∧ s2.tlb_hits = 1 :=
  ⟨⟨rfl, fun _ => rfl, fun _ => Nat.le_refl _⟩, by decide, by decide, by decide,
    first_touch store42 ⟨rfl, fun _ => rfl, fun _ => Nat.le_refl _⟩ 1 10 (by decide)
      (by decide)⟩

theorem translate_eq_find_frame (bs : BackingStore) (s : VMState) (a : Int) :
    translate bs s a
      = match find_frame bs s a with
        | none => none
        | some (f, s2) => some (s2.physical_memory (physical_index f (get_offset a)), s2) :=
  rfl

/-- C15. Free-frame allocation is lowest-index-first and side-effect free: in
every reachable state with `number_of_free_frames > 0`,
`get_next_free_frame()` returns the smallest index `i` with
`free_frame_list[i] != -1`, marks it used, decrements
`number_of_free_frames` by 1 and changes neither the page table, the tlb nor
`next_fifo_frame` (nor any other program variable); and in every reachable
state the `k`-th call since initialisation has returned `k mod 64`, the next
call returning `assigned.length mod 64`. -/
theorem free_frame_allocation (s : VMState) (h : Reachable s) :
    (0 < s.number_of_free_frames →
        ∃ (i : Nat) (s1 : VMState), get_next_free_frame s = some ((i : Int), s1)
          ∧ (∃ v, s.free_frame_list[i]? = some v ∧ v ≠ -1)
          ∧ (∀ j : Nat, j < i → s.free_frame_list[j]? = some (-1))
          ∧ s1.free_frame_list = s.free_frame_list.set i (-1)
          ∧ s1.number_of_free_frames = s.number_of_free_frames - 1
          ∧ s1.page_table = s.page_table ∧ s1.tlb = s.tlb
          ∧ s1.next_fifo_frame = s.next_fifo_frame
          ∧ s1.next_free_tlb_index = s.next_free_tlb_index
          ∧ s1.page_faults = s.page_faults ∧ s1.tlb_hits = s.tlb_hits
          ∧ s1.temp_frame = s.temp_frame ∧ s1.physical_memory = s.physical_memory)
      ∧ (∀ (k : Nat) (f : Int), s.assigned[k]? = some f → f = (((k % 64 : Nat)) : Int))
      ∧ (∀ (f : Int) (s1 : VMState), get_next_free_frame s = some (f, s1) →
          f = (((s.assigned.length % 64 : Nat)) : Int) ∧ s1.assigned = s.assigned ++ [f]) := by
  have hI := reachable_inv h
  refine ⟨?_, hI.asg, ?_⟩
  · intro hpos
    have hn : s.assigned.length < 64 := by
      have := hI.nfree
      omega
    have hused : ∀ j : Nat, j < s.assigned.length → s.free_frame_list[j]? = some (-1) := by
      intro j hj
      rw [hI.ffl j (by omega)]
      simp [hj]
    have hfree : s.free_frame_list[s.assigned.length]? = some 1 := by
      rw [hI.ffl _ hn]
      simp
    have hscan : scan_free s.free_frame_list 0 = some s.assigned.length := by
      have := scan_free_eq s.free_frame_list 0 s.assigned.length hused ⟨1, hfree, by decide⟩
      simpa using this
    refine ⟨s.assigned.length,
      { s with
        free_frame_list := s.free_frame_list.set s.assigned.length (-1)
        number_of_free_frames := s.number_of_free_frames - 1
        assigned := s.assigned ++ [(s.assigned.length : Int)] },
      ?_, ⟨1, hfree, by decide⟩, hused, rfl, rfl, rfl, rfl, rfl, rfl, rfl, rfl, rfl, rfl⟩
    unfold get_next_free_frame
    rw [if_pos hpos, hscan]
  · intro f s1 hg
    rw [get_next_free_frame_eq hI] at hg
    simp only [Option.some.injEq, Prod.mk.injEq] at hg
    rw [← hg.1, ← hg.2]
    exact ⟨rfl, rfl⟩

set_option maxRecDepth 1000000 in
theorem free_frame_allocation_witness :
    Reachable (after demo_store (sweep 10))
      ∧ 0 < (after demo_store (sweep 10)).number_of_free_frames
      ∧ ∃ (i : Nat) (s1 : VMState),
          get_next_free_frame (after demo_store (sweep 10)) = some ((i : Int), s1)
          ∧ (∃ v, (after demo_store (sweep 10)).free_frame_list[i]? = some v ∧ v ≠ -1)
          ∧ (∀ j : Nat, j < i → (after demo_store (sweep 10)).free_frame_list[j]? = some (-1))
          ∧ s1.free_frame_list = (after demo_store (sweep 10)).free_frame_list.set i (-1)
          ∧ s1.number_of_free_frames = (after demo_store (sweep 10)).number_of_free_frames - 1
          ∧ s1.page_table = (after demo_store (sweep 10)).page_table
          ∧ s1.tlb = (after demo_store (sweep 10)).tlb
          ∧ s1.next_fifo_frame = (after demo_store (sweep 10)).next_fifo_frame
          ∧ s1.next_free_tlb_index = (after demo_store (sweep 10)).next_free_tlb_index
          ∧ s1.page_faults = (after demo_store (sweep 10)).page_faults
          ∧ s1.tlb_hits = (after demo_store (sweep 10)).tlb_hits
          ∧ s1.temp_frame = (after demo_store (sweep 10)).temp_frame
          ∧ s1.physical_memory = (after demo_store (sweep 10)).physical_memory :=
  ⟨reachable_after _ _, by decide,
    (free_frame_allocation (after demo_store (sweep 10)) (reachable_after _ _)).1 (by decide)⟩

/-- C16. Physical accesses stay inside the owning frame: in every reachable
state every page table entry is `-1` or in `[0, 64)` and every valid tlb entry
has its `frame_number` in `[0, 64)`; for every request whose backing-store
access succeeds the frame number found by `main` is in `[0, 64)` and the index
`frame_number * 256 + offset` at which `physical_memory` is read lies in
`[frame_number * 256, frame_number * 256 + 255]` and in `[0, 64 * 256)`;
offsets 0 and 255 give the first and the last byte of that frame. -/
theorem physical_access_in_frame (s : VMState) (h : Reachable s) :
    (∀ (p : Nat) (f : Int), s.page_table[p]? = some f →
        f = -1 ∨ (0 ≤ f ∧ f < NUMBER_OF_FRAMES))
      ∧ (∀ (i : Nat) (e : tlb_entry), s.tlb[i]? = some e → e.valid = 1 →
          0 ≤ e.frame_number ∧ e.frame_number < NUMBER_OF_FRAMES)
      ∧ (∀ (bs : BackingStore) (a : Int),
          bs.fseek_ok (get_page_number a * PAGE_SIZE) = true →
          (fread bs (get_page_number a * PAGE_SIZE)).length ≠ 0 →
          ∃ f s1, find_frame bs s a = some (f, s1)
            ∧ 0 ≤ f ∧ f < NUMBER_OF_FRAMES
            ∧ f * 256 ≤ physical_index f (get_offset a)
            ∧ physical_index f (get_offset a) ≤ f * 256 + 255
            ∧ 0 ≤ physical_index f (get_offset a)
            ∧ physical_index f (get_offset a) < 64 * 256
            ∧ translate bs s a
              = some (s1.physical_memory (physical_index f (get_offset a)), s1))
      ∧ (∀ f : Int, physical_index f 0 = f * 256 ∧ physical_index f 255 = f * 256 + 255) := by
  have hI := reachable_inv h
  have hrange : ∀ (p : Nat) (f : Int), s.page_table[p]? = some f → f ≠ -1 →
      0 ≤ f ∧ f < NUMBER_OF_FRAMES := by
    intro p f hp hf
    have := hI.pt_range p f hp hf
    exact ⟨this.1, this.2.1⟩
  refine ⟨?_, ?_, ?_, ?_⟩
  · intro p f hp
    by_cases hf : f = -1
    · exact Or.inl hf
    · exact Or.inr (hrange p f hp hf)
  · intro i e hi hv
    obtain ⟨_, hm, hne⟩ := hI.tlb_valid i e hi hv
    exact hrange _ _ hm hne
  · intro bs a hseek hread
    have hp := get_page_number_range a
    have ho := get_offset_range a
    have key : ∀ (f : Int) (s1 : VMState), find_frame bs s a = some (f, s1) →
        0 ≤ f ∧ f < NUMBER_OF_FRAMES →
        ∃ f s1, find_frame bs s a = some (f, s1)
          ∧ 0 ≤ f ∧ f < NUMBER_OF_FRAMES
          ∧ f * 256 ≤ physical_index f (get_offset a)
          ∧ physical_index f (get_offset a) ≤ f * 256 + 255
          ∧ 0 ≤ physical_index f (get_offset a)
          ∧ physical_index f (get_offset a) < 64 * 256
          ∧ translate bs s a
            = some (s1.physical_memory (physical_index f (get_offset a)), s1) := by
      intro f s1 hfind hf
      have hf2 : f < 64 := hf.2
      refine ⟨f, s1, hfind, hf.1, hf.2, ?_, ?_, ?_, ?_, ?_⟩
      · unfold physical_index FRAME_SIZE; omega
      · unfold physical_index FRAME_SIZE; omega
      · unfold physical_index FRAME_SIZE; omega
      · unfold physical_index FRAME_SIZE; omega
      · rw [translate_eq_find_frame, hfind]
    cases hcl : check_tlb_loop s.tlb (get_page_number a) with
    | some f =>
      obtain ⟨_, hm, hne⟩ := check_tlb_loop_frame hI _ _ hcl
      refine key f { s with tlb_hits := s.tlb_hits + 1 } ?_ (hrange _ _ hm hne)
      unfold find_frame check_tlb
      simp only [hcl, if_neg hne]
    | none =>
      have hfind : find_frame bs s a = check_page_table bs s (get_page_number a) := by
        unfold find_frame check_tlb
        simp only [hcl, if_pos]
      obtain ⟨x, hx⟩ := page_table_entry hI _ hp
      by_cases hx1 : x = -1
      · subst hx1
        refine key (next_frame s) (fault_state bs s (get_page_number a)) ?_
          (next_frame_range s)
        rw [hfind, check_page_table_fault hI bs _ hp hx hseek hread]
      · refine key x s ?_ (hrange _ _ hx hx1)
        rw [hfind, check_page_table_mapped bs s _ x hp.1 hx hx1]
  · intro f
    unfold physical_index FRAME_SIZE
    omega

theorem physical_access_in_frame_witness :
    Reachable (after demo_store (sweep 70))
      ∧ demo_store.fseek_ok (get_page_number 1023 * PAGE_SIZE) = true
      ∧ (fread demo_store (get_page_number 1023 * PAGE_SIZE)).length ≠ 0
      ∧ ∃ f s1, find_frame demo_store (after demo_store (sweep 70)) 1023 = some (f, s1)
          ∧ 0 ≤ f ∧ f < NUMBER_OF_FRAMES
          ∧ f * 256 ≤ physical_index f (get_offset 1023)
          ∧ physical_index f (get_offset 1023) ≤ f * 256 + 255
          ∧ 0 ≤ physical_index f (get_offset 1023)
          ∧ physical_index f (get_offset 1023) < 64 * 256
          ∧ translate demo_store (after demo_store (sweep 70)) 1023
            = some (s1.physical_memory (physical_index f (get_offset 1023)), s1) :=
  ⟨reachable_after _ _, rfl, fread_nonempty demo_readable 1023,
    (physical_access_in_frame (after demo_store (sweep 70)) (reachable_after _ _)).2.2.1
      demo_store 1023 rfl (fread_nonempty demo_readable 1023)⟩

theorem get_next_free_frame_with_fifo (s : VMState) :
    get_next_free_frame_with Policy.fifo s = get_next_free_frame s := rfl

theorem check_page_table_with_fifo (bs : BackingStore) (s : VMState) (p : Int) :
    check_page_table_with Policy.fifo bs s p = check_page_table bs s p := by
  unfold check_page_table_with check_page_table install_frame
  simp only [get_next_free_frame_with_fifo]
  cases readArr s.page_table p with
  | none => rfl
  | some f =>
    simp only
    split
    · split
      · rfl
      · split
        · rfl
        · cases get_next_free_frame _ with
          | none => rfl
          | some r =>
            obtain ⟨f1, s3⟩ := r
            simp only
            cases writeArr s3.page_table p f1 with
            | none => rfl
            | some pt => rfl
    · rfl

/-- C17 as stated fails: in the state after 64 distinct pages (no free frame
left) a build with the no-op policy serves the fault on page 64 by storing the
sentinel `-99` into `page_table[64]` and passing it to `memcpy` as the frame
number, whose destination is outside the memory block (the step is
undefined); nothing reports an error before that. -/
theorem noop_sentinel_stored :
    (after demo_store (sweep 64)).number_of_free_frames = 0
      ∧ readArr (after demo_store (sweep 64)).page_table 64 = some (-1)
      ∧ (install_frame Policy.noop (loaded_state demo_store (after demo_store (sweep 64)) 64)
            64).map (fun r => (r.1, readArr r.2.page_table 64, (memcpy_frame r.2 r.1).isNone))
          = some (-99, some (-99), true)
      ∧ (check_page_table_with Policy.noop demo_store (after demo_store (sweep 64)) 64).isNone
          = true := by
  set_option maxRecDepth 1000000 in decide

/-- C17 (amended). With the no-op policy and `number_of_free_frames == 0`,
`get_next_free_frame()` returns the sentinel `-99` and changes no program
variable; the page-fault path of `check_page_table` then stores `-99` into
`page_table[page_number]` (the tlb is still untouched) and passes `-99` to
`memcpy` as the frame number; the destination lies outside `physical_memory`,
so the behaviour of the program is undefined from there on: the failure is
not a checked error. -/
theorem noop_policy_failure (bs : BackingStore) (s : VMState) (p : Int)
    (hfree : s.number_of_free_frames = 0) (hp0 : 0 ≤ p) (hpl : p.toNat < s.page_table.length)
    (hpt : s.page_table[p.toNat]? = some (-1))
    (hseek : bs.fseek_ok (p * PAGE_SIZE) = true)
    (hread : (fread bs (p * PAGE_SIZE)).length ≠ 0) :
    get_next_free_frame_with Policy.noop s
        = some (-99, { s with assigned := s.assigned ++ [-99] })
      ∧ (∃ s3, install_frame Policy.noop (loaded_state bs s p) p = some (-99, s3)
          ∧ s3.page_table = s.page_table.set p.toNat (-99) ∧ s3.tlb = s.tlb
          ∧ memcpy_frame s3 (-99) = none)
      ∧ check_page_table_with Policy.noop bs s p = none := by
  have hz : ¬ s.number_of_free_frames > 0 := by omega
  have hg : ∀ t : VMState, t.number_of_free_frames = s.number_of_free_frames →
      get_next_free_frame_with Policy.noop t
        = some (-99, { t with assigned := t.assigned ++ [-99] }) := by
    intro t ht
    unfold get_next_free_frame_with
    rw [if_neg (by rw [ht]; exact hz)]
    rfl
  have hw : writeArr s.page_table p (-99) = some (s.page_table.set p.toNat (-99)) := by
    unfold writeArr
    rw [if_pos ⟨hp0, hpl⟩]
  have hinst : install_frame Policy.noop (loaded_state bs s p) p
      = some (-99, { loaded_state bs s p with
          assigned := s.assigned ++ [-99]
          page_table := s.page_table.set p.toNat (-99) }) := by
    unfold install_frame
    rw [hg (loaded_state bs s p) rfl]
    show (match writeArr s.page_table p (-99) with
      | none => none
      | some pt => _) = _
    rw [hw]
    rfl
  have hmem : ∀ t : VMState, memcpy_frame t (-99) = none := by
    intro t
    unfold memcpy_frame
    rw [if_neg (by omega)]
  refine ⟨hg s rfl, ⟨_, hinst, rfl, rfl, hmem _⟩, ?_⟩
  unfold check_page_table_with
  rw [readArr_eq _ _ hp0, hpt]
  simp only [if_pos, hseek, Bool.true_eq_false, if_false]
  rw [if_neg hread]
  change (match install_frame Policy.noop (loaded_state bs s p) p with
    | none => none
    | some (frame_number, s3) => _) = _
  rw [hinst]
  simp only [hmem]

set_option maxRecDepth 1000000 in
theorem noop_policy_failure_witness :
    (after demo_store (sweep 64)).number_of_free_frames = 0
      ∧ get_next_free_frame_with Policy.noop (after demo_store (sweep 64))
        = some (-99, { after demo_store (sweep 64) with
            assigned := (after demo_store (sweep 64)).assigned ++ [-99] })
      ∧ (∃ s3, install_frame Policy.noop
            (loaded_state demo_store (after demo_store (sweep 64)) 64) 64 = some (-99, s3)
          ∧ s3.page_table = (after demo_store (sweep 64)).page_table.set (64 : Int).toNat (-99)
          ∧ s3.tlb = (after demo_store (sweep 64)).tlb
          ∧ memcpy_frame s3 (-99) = none)
      ∧ check_page_table_with Policy.noop demo_store (after demo_store (sweep 64)) 64 = none :=
  ⟨by decide,
    noop_policy_failure demo_store (after demo_store (sweep 64)) 64 (by decide) (by decide)
      (by decide) (by decide) rfl (by decide)⟩

/-! ## The free-frame search -/

theorem scan_free_count (l : List Int) :
    ∀ k : Nat, 0 < free_count l →
      ∃ i : Nat, scan_free l k = some (k + i) ∧ i < l.length
        ∧ free_count (l.set i (-1)) + 1 = free_count l
        ∧ ∃ v, l[i]? = some v ∧ v ≠ -1 := by
  induction l with
  | nil => intro k h; simp [free_count] at h
  | cons x xs ih =>
    intro k h
    by_cases hx : x = -1
    · have hc : free_count (x :: xs) = free_count xs := by
        unfold free_count
        rw [List.countP_cons_of_neg]
        simp [hx]
      rw [hc] at h
      obtain ⟨i, h1, h2, h3, h4⟩ := ih (k + 1) h
      refine ⟨i + 1, ?_, by simp; omega, ?_, by simpa using h4⟩
      · rw [scan_free, if_pos hx, h1]
        congr 1
        omega
      · rw [hc, List.set_cons_succ]
        have hc2 : free_count (x :: xs.set i (-1)) = free_count (xs.set i (-1)) := by
          unfold free_count
          rw [List.countP_cons_of_neg]
          simp [hx]
        rw [hc2, h3]
    · refine ⟨0, ?_, by simp, ?_, ⟨x, by simp, hx⟩⟩
      · rw [scan_free, if_neg hx]
        rfl
      · rw [List.set_cons_zero]
        unfold free_count
        simp [List.countP_cons, hx]

theorem alloc_reachable_count {s : VMState} (h : AllocReachable s) :
    s.free_frame_list.length = 64
      ∧ s.number_of_free_frames = ((free_count s.free_frame_list : Nat) : Int) := by
  induction h with
  | init s0 =>
    constructor
    · show (List.replicate 64 (1 : Int)).length = 64
      rw [List.length_replicate]
    · show (64 : Int) = ((free_count (List.replicate 64 (1 : Int)) : Nat) : Int)
      unfold free_count
      rw [List.countP_replicate]
      rfl
  | @call s s1 f _ hg ih =>
    obtain ⟨hlen, hnum⟩ := ih
    unfold get_next_free_frame at hg
    by_cases hpos : s.number_of_free_frames > 0
    · rw [if_pos hpos] at hg
      obtain ⟨i, h1, h2, h3, _⟩ := scan_free_count s.free_frame_list 0 (by omega)
      rw [h1] at hg
      simp only [Nat.zero_add, Option.some.injEq, Prod.mk.injEq] at hg
      rw [← hg.2]
      constructor
      · show (s.free_frame_list.set i (-1)).length = 64
        rw [List.length_set, hlen]
      · show s.number_of_free_frames - 1 = ((free_count (s.free_frame_list.set i (-1)) : Nat) : Int)
        omega
    · rw [if_neg hpos] at hg
      simp only [Option.some.injEq, Prod.mk.injEq] at hg
      rw [← hg.2]
      exact ⟨hlen, hnum⟩

theorem alloc_reachable_times (k : Nat) : ∀ s : VMState, AllocReachable s →
    AllocReachable (allocate_times k s) := by
  induction k with
  | zero => intro s h; exact h
  | succ k ih =>
    intro s h
    unfold allocate_times
    cases hg : get_next_free_frame s with
    | none => exact h
    | some r => exact ih r.2 (AllocReachable.call h hg)

/-- C20. Free-list search is bounded: in every state reachable from
`init_physical_memory()` by calls of `get_next_free_frame()`,
`number_of_free_frames` is in `[0, 64]` and equals the number of indices
`i < 64` with `free_frame_list[i] != -1`; the next call is defined and does
not increase `number_of_free_frames`; and whenever `number_of_free_frames > 0`
the search `while (free_frame_list[i] == -1) i++` stops at an index
`i < NUMBER_OF_FRAMES`. -/
theorem free_list_search_bounded (s : VMState) (h : AllocReachable s) :
    (0 ≤ s.number_of_free_frames ∧ s.number_of_free_frames ≤ 64)
      ∧ s.free_frame_list.length = 64
      ∧ s.number_of_free_frames = ((free_count s.free_frame_list : Nat) : Int)
      ∧ (∃ f s1, get_next_free_frame s = some (f, s1)
          ∧ s1.number_of_free_frames ≤ s.number_of_free_frames)
      ∧ (0 < s.number_of_free_frames →
          ∃ i : Nat, scan_free s.free_frame_list 0 = some i ∧ (i : Int) < NUMBER_OF_FRAMES
            ∧ ∃ v, s.free_frame_list[i]? = some v ∧ v ≠ -1) := by
  obtain ⟨hlen, hnum⟩ := alloc_reachable_count h
  have hle : free_count s.free_frame_list ≤ 64 := by
    rw [← hlen]
    exact List.countP_le_length _
  have hscan : 0 < s.number_of_free_frames →
      ∃ i : Nat, scan_free s.free_frame_list 0 = some i ∧ i < 64
        ∧ ∃ v, s.free_frame_list[i]? = some v ∧ v ≠ -1 := by
    intro hpos
    obtain ⟨i, h1, h2, _, h4⟩ := scan_free_count s.free_frame_list 0 (by omega)
    exact ⟨i, by simpa using h1, by omega, h4⟩
  refine ⟨by omega, hlen, hnum, ?_, ?_⟩
  · by_cases hpos : s.number_of_free_frames > 0
    · obtain ⟨i, h1, _⟩ := hscan hpos
      refine ⟨(i : Int),
        { s with
          free_frame_list := s.free_frame_list.set i (-1)
          number_of_free_frames := s.number_of_free_frames - 1
          assigned := s.assigned ++ [(i : Int)] }, ?_, ?_⟩
      · unfold get_next_free_frame
        rw [if_pos hpos, h1]
      · show s.number_of_free_frames - 1 ≤ s.number_of_free_frames
        omega
    · refine ⟨(FIFO_page_replacement s).1,
        { (FIFO_page_replacement s).2 with
          assigned := (FIFO_page_replacement s).2.assigned ++ [(FIFO_page_replacement s).1] },
        ?_, ?_⟩
      · unfold get_next_free_frame
        rw [if_neg hpos]
      · exact Int.le_refl _
  · intro hpos
    obtain ⟨i, h1, h2, h3⟩ := hscan hpos
    exact ⟨i, h1, by unfold NUMBER_OF_FRAMES; omega, h3⟩

set_option maxRecDepth 1000000 in
theorem free_list_search_bounded_witness :
    AllocReachable (allocate_times 10 (init_physical_memory boot))
      ∧ (0 ≤ (allocate_times 10 (init_physical_memory boot)).number_of_free_frames
        ∧ (allocate_times 10 (init_physical_memory boot)).number_of_free_frames ≤ 64)
      ∧ (allocate_times 10 (init_physical_memory boot)).free_frame_list.length = 64
      ∧ (allocate_times 10 (init_physical_memory boot)).number_of_free_frames
        = ((free_count (allocate_times 10 (init_physical_memory boot)).free_frame_list : Nat)
            : Int)
      ∧ (∃ f s1, get_next_free_frame (allocate_times 10 (init_physical_memory boot))
            = some (f, s1)
          ∧ s1.number_of_free_frames
            ≤ (allocate_times 10 (init_physical_memory boot)).number_of_free_frames)
      ∧ (0 < (allocate_times 10 (init_physical_memory boot)).number_of_free_frames →
          ∃ i : Nat,
            scan_free (allocate_times 10 (init_physical_memory boot)).free_frame_list 0 = some i
            ∧ (i : Int) < NUMBER_OF_FRAMES
            ∧ ∃ v, (allocate_times 10 (init_physical_memory boot)).free_frame_list[i]? = some v
              ∧ v ≠ -1) :=
  ⟨alloc_reachable_times 10 _ (AllocReachable.init boot),
    free_list_search_bounded _ (alloc_reachable_times 10 _ (AllocReachable.init boot))⟩

/-- C13. Address decode is the base-256 split, in both variants: for every
`int` `a`, `0 <= get_page_number(a) < 256`, `0 <= get_offset(a) < 256` and
`get_page_number(a) * 256 + get_offset(a)` equals the low 16 bits `a & 0xFFFF`;
hence for `a` in `[0, 65536)` recomposing page number and offset gives back
`a`. -/
theorem address_decode_split (a : Int) :
    (0 ≤ get_page_number a ∧ get_page_number a < 256)
      ∧ (0 ≤ get_offset a ∧ get_offset a < 256)
      ∧ get_page_number a * 256 + get_offset a = (((bits32 a &&& 0xFFFF : Nat)) : Int)
      ∧ (0 ≤ a → a < 65536 → get_page_number a * 256 + get_offset a = a)
      ∧ Example.get_page_number a = get_page_number a
      ∧ Example.get_offset a = get_offset a := by
  refine ⟨get_page_number_range a, get_offset_range a, ?_, ?_, rfl, rfl⟩
  · rw [and_low16, get_page_number_eq, get_offset_eq]
    unfold bits32
    omega
  · intro h0 h1
    rw [get_page_number_eq, get_offset_eq]
    omega

theorem address_decode_split_witness :
    (0 : Int) ≤ 54321 ∧ (54321 : Int) < 65536
      ∧ get_page_number 54321 * 256 + get_offset 54321 = 54321 :=
  ⟨by decide, by decide, (address_decode_split 54321).2.2.2.1 (by decide) (by decide)⟩

end Task

namespace Example
open Task (tlb_entry BackingStore readArr writeArr check_tlb_loop fread bits32)

theorem mapped_count_cons_unmapped (xs : List Int) :
    mapped_count (-1 :: xs) = mapped_count xs := by
  simp [mapped_count, List.countP_cons]

theorem mapped_count_cons_mapped (v : Int) (xs : List Int) (hv : v ≠ -1) :
    mapped_count (v :: xs) = mapped_count xs + 1 := by
  simp [mapped_count, List.countP_cons, hv]

theorem mapped_count_set (l : List Int) :
    ∀ (i : Nat) (v : Int), l[i]? = some (-1) → v ≠ -1 →
      mapped_count (l.set i v) = mapped_count l + 1 ∧ mapped_count l < l.length := by
  induction l with
  | nil => intro i v h; simp at h
  | cons x xs ih =>
    intro i v h hv
    cases i with
    | zero =>
      simp only [List.getElem?_cons_zero, Option.some.injEq] at h
      subst h
      have hle : mapped_count xs ≤ xs.length := List.countP_le_length _
      rw [List.set_cons_zero, mapped_count_cons_unmapped, mapped_count_cons_mapped v xs hv,
        List.length_cons]
      omega
    | succ k =>
      rw [List.getElem?_cons_succ] at h
      obtain ⟨h1, h2⟩ := ih k v h hv
      rw [List.set_cons_succ, List.length_cons]
      by_cases hx : x = -1
      · subst hx
        rw [mapped_count_cons_unmapped, mapped_count_cons_unmapped]
        omega
      · rw [mapped_count_cons_mapped x _ hx, mapped_count_cons_mapped x _ hx]
        omega

theorem ex_initial_page_table : initial.page_table = List.replicate 256 (-1) := rfl

theorem ex_initial_tlb : initial.tlb = List.replicate 16 ⟨-1, -1, -1⟩ := by decide

theorem ex_inv_initial : Inv initial := by
  refine ⟨by rw [ex_initial_page_table, List.length_replicate],
    by rw [ex_initial_tlb, List.length_replicate], by decide, ?_⟩
  show (0 : Int) = ((mapped_count initial.page_table : Nat) : Int)
  rw [ex_initial_page_table]
  unfold mapped_count
  rw [List.countP_replicate]
  rfl

theorem readArr_page {s : VMState} (h : Inv s) (p : Int) (hp : 0 ≤ p ∧ p < 256) :
    ∃ x, readArr s.page_table p = some x ∧ s.page_table[p.toNat]? = some x := by
  have hl : p.toNat < s.page_table.length := by rw [h.pt_len]; omega
  refine ⟨s.page_table[p.toNat], ?_, List.getElem?_eq_getElem hl⟩
  rw [Task.readArr_eq _ _ hp.1]
  exact List.getElem?_eq_getElem hl

theorem next_free_frame_range {s : VMState} (h : Inv s) (p : Nat)
    (hpt : s.page_table[p]? = some (-1)) :
    0 ≤ s.next_free_frame ∧ s.next_free_frame < 256 := by
  have h1 := (mapped_count_set s.page_table p 0 hpt (by decide)).2
  have h2 := h.count
  have h3 := h.pt_len
  omega

theorem ex_check_page_table_mapped (bs : BackingStore) (s : VMState) (p f : Int) (hp : 0 ≤ p)
    (hpt : s.page_table[p.toNat]? = some f) (hf : f ≠ -1) :
    check_page_table bs s p = some (f, s) := by
  unfold check_page_table
  rw [Task.readArr_eq _ _ hp, hpt]
  simp only [if_neg hf]

theorem ex_check_page_table_seek_error (bs : BackingStore) (s : VMState) (p : Int) (hp : 0 ≤ p)
    (hpt : s.page_table[p.toNat]? = some (-1)) (hseek : bs.fseek_ok (p * PAGE_SIZE) = false) :
    check_page_table bs s p = some (-1, { s with page_faults := s.page_faults + 1 }) := by
  unfold check_page_table
  rw [Task.readArr_eq _ _ hp, hpt]
  simp only [if_pos, hseek]

theorem ex_check_page_table_fault {s : VMState} (h : Inv s) (bs : BackingStore) (p : Int)
    (hp : 0 ≤ p ∧ p < 256) (hpt : s.page_table[p.toNat]? = some (-1))
    (hseek : bs.fseek_ok (p * PAGE_SIZE) = true) :
    check_page_table bs s p
      = if (fread bs (p * PAGE_SIZE)).length = 0 then some (-1, taken_state bs s p)
        else some (s.next_free_frame, fault_state bs s p) := by
  have hr := next_free_frame_range h p.toNat hpt
  have hidx := h.tlb_idx
  have hfr : (get_next_free_frame { s with page_faults := s.page_faults + 1 }).1
      = s.next_free_frame := by
    show s.next_free_frame + 1 - 1 = s.next_free_frame
    omega
  have c1 : 0 ≤ p ∧ p.toNat < s.page_table.length := by
    rw [h.pt_len]
    omega
  have c2 : 0 ≤ s.next_free_frame ∧ s.next_free_frame < NUMBER_OF_FRAMES := hr
  have c3 : 0 ≤ s.next_free_tlb_index ∧ s.next_free_tlb_index.toNat < s.tlb.length := by
    rw [h.tlb_len]
    omega
  have c4 : Int.tmod (s.next_free_tlb_index + 1) TLB_SIZE = (s.next_free_tlb_index + 1) % 16 :=
    Int.tmod_eq_emod (by omega) (by decide)
  unfold check_page_table
  rw [Task.readArr_eq _ _ hp.1, hpt]
  simp only [if_pos, hseek, Bool.true_eq_false, if_false, hfr]
  simp only [get_next_free_frame, writeArr, if_pos c1, fread_frame, if_pos c2]
  split
  · rfl
  · simp only [update_tlb, writeArr, if_pos c3, c4]
    rfl

theorem inv_taken {s : VMState} (h : Inv s) (bs : BackingStore) (p : Int)
    (hpt : s.page_table[p.toNat]? = some (-1)) : Inv (taken_state bs s p) := by
  have hr := next_free_frame_range h p.toNat hpt
  refine ⟨?_, h.tlb_len, h.tlb_idx, ?_⟩
  · show (s.page_table.set p.toNat s.next_free_frame).length = 256
    rw [List.length_set, h.pt_len]
  · show s.next_free_frame + 1
      = ((mapped_count (s.page_table.set p.toNat s.next_free_frame) : Nat) : Int)
    rw [(mapped_count_set s.page_table p.toNat s.next_free_frame hpt (by omega)).1, h.count]
    push_cast
    rfl

theorem ex_inv_fault {s : VMState} (h : Inv s) (bs : BackingStore) (p : Int)
    (hpt : s.page_table[p.toNat]? = some (-1)) : Inv (fault_state bs s p) := by
  have ht := inv_taken h bs p hpt
  have hidx := h.tlb_idx
  refine ⟨ht.pt_len, ?_, ?_, ht.count⟩
  · show (s.tlb.set _ _).length = 16
    rw [List.length_set, h.tlb_len]
  · show 0 ≤ (s.next_free_tlb_index + 1) % 16 ∧ (s.next_free_tlb_index + 1) % 16 < 16
    omega

theorem get_page_number_eq_task (a : Int) : get_page_number a = Task.get_page_number a := rfl

theorem get_offset_eq_task (a : Int) : get_offset a = Task.get_offset a := rfl

theorem ex_get_page_number_range (a : Int) : 0 ≤ get_page_number a ∧ get_page_number a < 256 :=
  Task.get_page_number_range a

theorem ex_get_offset_range (a : Int) : 0 ≤ get_offset a ∧ get_offset a < 256 :=
  Task.get_offset_range a

theorem ex_translate_hit (bs : BackingStore) (s : VMState) (a f : Int)
    (hc : check_tlb_loop s.tlb (get_page_number a) = some f) (hf : f ≠ -1) :
    translate bs s a
      = some (s.physical_memory (f * FRAME_SIZE + get_offset a),
          { s with tlb_hits := s.tlb_hits + 1 }) := by
  unfold translate check_tlb
  simp only [hc, if_neg hf]

theorem translate_hit_sentinel (bs : BackingStore) (s : VMState) (a : Int)
    (hc : check_tlb_loop s.tlb (get_page_number a) = some (-1)) :
    translate bs s a
      = match check_page_table bs { s with tlb_hits := s.tlb_hits + 1 } (get_page_number a) with
        | none => none
        | some (frame_number, s2) =>
          some (s2.physical_memory (frame_number * FRAME_SIZE + get_offset a), s2) := by
  unfold translate check_tlb
  simp only [hc, if_pos]

theorem ex_translate_miss (bs : BackingStore) (s : VMState) (a : Int)
    (hc : check_tlb_loop s.tlb (get_page_number a) = none) :
    translate bs s a
      = match check_page_table bs s (get_page_number a) with
        | none => none
        | some (frame_number, s2) =>
          some (s2.physical_memory (frame_number * FRAME_SIZE + get_offset a), s2) := by
  unfold translate check_tlb
  simp only [hc, if_pos]

/-- The page-table probe is always defined in a state satisfying the
invariant and re-establishes it. -/
theorem check_page_table_inv {s : VMState} (h : Inv s) (bs : BackingStore) (p : Int)
    (hp : 0 ≤ p ∧ p < 256) :
    ∃ f s1, check_page_table bs s p = some (f, s1) ∧ Inv s1 := by
  obtain ⟨x, _, hx⟩ := readArr_page h p hp
  by_cases hx1 : x = -1
  · subst hx1
    cases hseek : bs.fseek_ok (p * PAGE_SIZE) with
    | false =>
      rw [ex_check_page_table_seek_error bs s _ hp.1 hx hseek]
      exact ⟨_, _, rfl, ⟨h.pt_len, h.tlb_len, h.tlb_idx, h.count⟩⟩
    | true =>
      rw [ex_check_page_table_fault h bs _ hp hx hseek]
      split
      · exact ⟨_, _, rfl, inv_taken h bs p hx⟩
      · exact ⟨_, _, rfl, ex_inv_fault h bs p hx⟩
  · rw [ex_check_page_table_mapped bs s _ x hp.1 hx hx1]
    exact ⟨_, _, rfl, h⟩

theorem ex_translate_inv {s : VMState} (h : Inv s) (bs : BackingStore) (a : Int) :
    ∃ v s1, translate bs s a = some (v, s1) ∧ Inv s1 := by
  have hp := ex_get_page_number_range a
  have hh : Inv { s with tlb_hits := s.tlb_hits + 1 } :=
    ⟨h.pt_len, h.tlb_len, h.tlb_idx, h.count⟩
  cases hc : check_tlb_loop s.tlb (get_page_number a) with
  | some f =>
    by_cases hf : f = -1
    · subst hf
      rw [translate_hit_sentinel bs s a hc]
      obtain ⟨f1, s1, he, hi⟩ := check_page_table_inv hh bs _ hp
      rw [he]
      exact ⟨_, _, rfl, hi⟩
    · exact ⟨_, _, ex_translate_hit bs s a f hc hf, hh⟩
  | none =>
    rw [ex_translate_miss bs s a hc]
    obtain ⟨f1, s1, he, hi⟩ := check_page_table_inv h bs _ hp
    rw [he]
    exact ⟨_, _, rfl, hi⟩

theorem ex_reachable_inv {s : VMState} (h : Reachable s) : Inv s := by
  induction h with
  | init => exact ex_inv_initial
  | step bs a _ ht ih =>
    obtain ⟨v, s1, he, hi⟩ := ex_translate_inv ih bs a
    rw [he] at ht
    cases ht
    exact hi

theorem ex_run_reachable (bs : BackingStore) (reqs : List Int) :
    ∀ (s : VMState), Reachable s → ∃ r, run bs s reqs = some r ∧ Reachable r.2 := by
  induction reqs with
  | nil => intro s hs; exact ⟨([], s), rfl, hs⟩
  | cons a rest ih =>
    intro s hs
    obtain ⟨v, s1, he, _⟩ := ex_translate_inv (ex_reachable_inv hs) bs a
    obtain ⟨r, hr, hreach⟩ := ih s1 (Reachable.step bs a hs he)
    refine ⟨(v :: r.1, r.2), ?_, hreach⟩
    simp only [run, he, hr]

theorem ex_reachable_after (bs : BackingStore) (reqs : List Int) : Reachable (after bs reqs) := by
  obtain ⟨r, hr, hreach⟩ := ex_run_reachable bs reqs initial Reachable.init
  unfold after
  rw [hr]
  exact hreach

/-- C18. The variant without replacement never runs out of frames: in every
state reachable from initialisation by any request sequence (also with failing
backing-store accesses) `next_free_frame` equals the number of page numbers
`p` with `page_table[p] != -1`, hence `next_free_frame <= 256`; whenever a
page is unmapped (the only situation in which `check_page_table` calls
`get_next_free_frame()`), the returned frame number is in
`[0, NUMBER_OF_FRAMES)`; and the next loop iteration is defined for every
address and backing store. -/
theorem frames_never_exhausted (s : VMState) (h : Reachable s) :
    s.next_free_frame = ((mapped_count s.page_table : Nat) : Int)
      ∧ s.page_table.length = 256
      ∧ (0 ≤ s.next_free_frame ∧ s.next_free_frame ≤ 256)
      ∧ (∀ p : Int, readArr s.page_table p = some (-1) →
          0 ≤ (get_next_free_frame s).1 ∧ (get_next_free_frame s).1 < NUMBER_OF_FRAMES
            ∧ (get_next_free_frame s).1 = s.next_free_frame)
      ∧ (∀ (bs : BackingStore) (a : Int), ∃ v s1, translate bs s a = some (v, s1)) := by
  have hI := ex_reachable_inv h
  have hle : mapped_count s.page_table ≤ 256 := by
    rw [← hI.pt_len]
    exact List.countP_le_length _
  have hc := hI.count
  refine ⟨hc, hI.pt_len, by omega, ?_, ?_⟩
  · intro p hp
    have hp0 : 0 ≤ p := by
      by_contra hneg
      unfold readArr at hp
      rw [if_pos (by omega)] at hp
      simp at hp
    rw [Task.readArr_eq _ _ hp0] at hp
    have hr := next_free_frame_range hI p.toNat hp
    have hfr : (get_next_free_frame s).1 = s.next_free_frame := by
      show s.next_free_frame + 1 - 1 = s.next_free_frame
      omega
    rw [hfr]
    exact ⟨hr.1, hr.2, rfl⟩
  · intro bs a
    obtain ⟨v, s1, he, _⟩ := ex_translate_inv hI bs a
    exact ⟨v, s1, he⟩

theorem frames_never_exhausted_witness :
    Reachable (after Task.short_store [775, 7, 775, 1031])
      ∧ (after Task.short_store [775, 7, 775, 1031]).next_free_frame
        = ((mapped_count (after Task.short_store [775, 7, 775, 1031]).page_table : Nat) : Int)
      ∧ (after Task.short_store [775, 7, 775, 1031]).page_table.length = 256
      ∧ (0 ≤ (after Task.short_store [775, 7, 775, 1031]).next_free_frame
        ∧ (after Task.short_store [775, 7, 775, 1031]).next_free_frame ≤ 256)
      ∧ (∀ p : Int, readArr (after Task.short_store [775, 7, 775, 1031]).page_table p
            = some (-1) →
          0 ≤ (get_next_free_frame (after Task.short_store [775, 7, 775, 1031])).1
            ∧ (get_next_free_frame (after Task.short_store [775, 7, 775, 1031])).1
              < NUMBER_OF_FRAMES
            ∧ (get_next_free_frame (after Task.short_store [775, 7, 775, 1031])).1
              = (after Task.short_store [775, 7, 775, 1031]).next_free_frame)
      ∧ (∀ (bs : BackingStore) (a : Int),
          ∃ v s1, translate bs (after Task.short_store [775, 7, 775, 1031]) a = some (v, s1)) :=
  ⟨ex_reachable_after _ _, frames_never_exhausted _ (ex_reachable_after _ _)⟩

theorem sim_initial : Sim Task.initial initial :=
  ⟨rfl, by decide, rfl, rfl, rfl, rfl⟩

theorem ex_mem_inv_initial (bs : BackingStore) : MemInv bs initial := by
  intro p f h hf
  rw [ex_initial_page_table, List.getElem?_replicate] at h
  split at h <;> simp at h
  omega

theorem ex_mem_inv_fault {bs : BackingStore} (hb : Task.Readable bs) {s : VMState}
    (hm : MemInv bs s) (p : Int) (hp : 0 ≤ p ∧ p < 256)
    (hfresh : ∀ (q : Nat) (g : Int), s.page_table[q]? = some g → g ≠ -1 →
      g ≠ s.next_free_frame) :
    MemInv bs (fault_state bs s p) := by
  have hgot := Task.fread_readable hb p hp
  have hlen : (fread bs (p * PAGE_SIZE)).length = 256 := by
    show (fread bs (p * Task.PAGE_SIZE)).length = 256
    rw [hgot]
    simp
  intro q g hq hg o ho0 ho1
  change (s.page_table.set p.toNat s.next_free_frame)[q]? = some g at hq
  show (if s.next_free_frame * FRAME_SIZE ≤ g * FRAME_SIZE + o
        ∧ g * FRAME_SIZE + o
          < s.next_free_frame * FRAME_SIZE + (fread bs (p * PAGE_SIZE)).length then
      (fread bs (p * PAGE_SIZE))[(g * FRAME_SIZE + o - s.next_free_frame * FRAME_SIZE).toNat]?
    else s.physical_memory (g * FRAME_SIZE + o)) = _
  rw [hlen]
  rw [List.getElem?_set] at hq
  by_cases hqp : p.toNat = q
  · rw [if_pos hqp] at hq
    split at hq
    · simp only [Option.some.injEq] at hq
      subst hq
      have hidx : (s.next_free_frame * FRAME_SIZE + o - s.next_free_frame * FRAME_SIZE).toNat
          = o.toNat := by omega
      rw [if_pos (by unfold FRAME_SIZE; omega), hidx]
      show (fread bs (p * Task.PAGE_SIZE))[o.toNat]? = _
      rw [hgot, List.getElem?_map, List.getElem?_range (by omega), hqp]
      rfl
    · simp at hq
  · rw [if_neg hqp] at hq
    have hne := hfresh q g hq hg
    rw [if_neg (by unfold FRAME_SIZE; omega)]
    exact hm q g hq hg o ho0 ho1

/-- One request served by both variants, with a readable backing store and
while the pages touched so far (`S`) and the requested page fit into the 64
frames of the variant with replacement: both print the same byte and stay in
step. -/
theorem paired_step {bs : BackingStore} (hb : Task.Readable bs) {t : Task.VMState}
    {e : VMState} (hI : Task.Inv t) (hM : Task.MemInv bs t) (hE : Inv e)
    (hEM : MemInv bs e) (hsim : Sim t e) (S : Finset Int)
    (hS : ∀ q : Nat, q < 256 → (t.page_table[q]? = some (-1) ↔ (q : Int) ∉ S))
    (hf : t.page_faults = (S.card : Int)) (ha : t.assigned.length = S.card)
    (a : Int) (hc : (insert (Task.get_page_number a) S).card ≤ 64) :
    ∃ v t1 e1, Task.translate bs t a = some (v, t1) ∧ translate bs e a = some (v, e1)
      ∧ Task.Inv t1 ∧ Task.MemInv bs t1 ∧ Inv e1 ∧ MemInv bs e1 ∧ Sim t1 e1
      ∧ (∀ q : Nat, q < 256 →
          (t1.page_table[q]? = some (-1) ↔ (q : Int) ∉ insert (Task.get_page_number a) S))
      ∧ t1.page_faults = ((insert (Task.get_page_number a) S).card : Int)
      ∧ t1.assigned.length = (insert (Task.get_page_number a) S).card := by
  obtain ⟨v1, t1, he, hi1, hS1, hf1, ha1⟩ := Task.translate_count hb hI S hS hf ha a hc
  obtain ⟨t2, he2, _, hm1⟩ := Task.translate_readable hb hI hM a
  rw [he2] at he
  simp only [Option.some.injEq, Prod.mk.injEq] at he
  obtain ⟨hv, ht⟩ := he
  subst ht
  obtain ⟨hs1, hs2, hs3, hs4, hs5, hs6⟩ := hsim
  have hp := Task.get_page_number_range a
  have ho := Task.get_offset_range a
  have hbyte : (Task.get_page_number a * 256 + Task.get_offset a).toNat
      = (Task.get_page_number a).toNat * 256 + (Task.get_offset a).toNat := by omega
  -- it remains to run the variant without replacement and to compare the states
  suffices hmain : ∃ e1, translate bs e a
        = some (some (bs.byte (Task.get_page_number a * 256 + Task.get_offset a).toNat), e1)
      ∧ Inv e1 ∧ MemInv bs e1 ∧ Sim t2 e1 by
    obtain ⟨e1, h1, h2, h3, h4⟩ := hmain
    exact ⟨_, t2, e1, he2, h1, hi1, hm1, h2, h3, h4, hS1, hf1, ha1⟩
  rw [hbyte]
  cases hcl : check_tlb_loop t.tlb (Task.get_page_number a) with
  | some f =>
    obtain ⟨_, hpt, hfne⟩ := Task.check_tlb_loop_frame hI _ _ hcl
    have het := Task.translate_hit bs t a f hcl hfne
    rw [he2] at het
    simp only [Option.some.injEq, Prod.mk.injEq] at het
    refine ⟨{ e with tlb_hits := e.tlb_hits + 1 }, ?_, ⟨hE.pt_len, hE.tlb_len, hE.tlb_idx, hE.count⟩,
      hEM, ?_⟩
    · rw [ex_translate_hit bs e a f (by rw [hs2]; exact hcl) hfne]
      rw [get_offset_eq_task, hEM _ f (by rw [hs1]; exact hpt) hfne _ ho.1 ho.2]
    · rw [het.2]
      exact ⟨hs1, hs2, hs3, hs4, by show e.tlb_hits + 1 = t.tlb_hits + 1; rw [hs5], hs6⟩
  | none =>
    obtain ⟨x, hx⟩ := Task.page_table_entry hI _ hp
    by_cases hx1 : x = -1
    · subst hx1
      have hseek := hb.2.1 (Task.get_page_number a * Task.PAGE_SIZE)
      have hread := Task.fread_nonempty hb a
      have hread2 : (fread bs (Task.get_page_number a * PAGE_SIZE)).length ≠ 0 := hread
      have het := Task.translate_fault hI bs a hcl hx hseek hread
      rw [he2] at het
      simp only [Option.some.injEq, Prod.mk.injEq] at het
      -- a free frame is left
      have hmem : Task.get_page_number a ∉ S := by
        have := (hS (Task.get_page_number a).toNat (by omega)).1 hx
        have hcast : (((Task.get_page_number a).toNat : Nat) : Int) = Task.get_page_number a := by
          omega
        rw [hcast] at this
        exact this
      have hcard : (insert (Task.get_page_number a) S).card = S.card + 1 :=
        Finset.card_insert_of_not_mem hmem
      have hn : t.assigned.length < 64 := by omega
      have hnf : Task.next_frame t = e.next_free_frame := by
        rw [hs6]
        unfold Task.next_frame
        omega
      have hex : e.page_table[(Task.get_page_number a).toNat]? = some (-1) := by
        rw [hs1]
        exact hx
      have hfresh : ∀ (q : Nat) (g : Int), e.page_table[q]? = some g → g ≠ -1 →
          g ≠ e.next_free_frame := by
        intro q g hq hg
        rw [hs1] at hq
        have := hI.pt_range q g hq hg
        omega
      refine ⟨fault_state bs e (Task.get_page_number a), ?_, ex_inv_fault hE bs _ hex,
        ex_mem_inv_fault hb hEM _ hp hfresh, ?_⟩
      · rw [ex_translate_miss bs e a (by rw [hs2]; exact hcl), get_page_number_eq_task,
          ex_check_page_table_fault hE bs _ hp hex hseek, if_neg hread2]
        have hself : (fault_state bs e (Task.get_page_number a)).page_table[
              (Task.get_page_number a).toNat]?
            = some e.next_free_frame := by
          show (e.page_table.set _ _)[_]? = _
          rw [List.getElem?_set, if_pos rfl, if_pos (by rw [hE.pt_len]; omega)]
        have hr := next_free_frame_range hE _ hex
        show some ((fault_state bs e (Task.get_page_number a)).physical_memory _, _) = _
        rw [get_offset_eq_task, ex_mem_inv_fault hb hEM _ hp hfresh _ _ hself (by omega) _ ho.1 ho.2]
      · rw [het.2]
        refine ⟨?_, ?_, ?_, ?_, hs5, ?_⟩
        · show e.page_table.set _ _ = _
          rw [Task.fault_page_table, Task.clear_frame_unmapped hI hn, hnf, hs1]
        · show e.tlb.set _ _ = _
          rw [Task.fault_tlb, Task.clear_entry_unmapped hI hn, hnf, hs2, hs3]
        · show (e.next_free_tlb_index + 1) % 16 = (t.next_free_tlb_index + 1) % 16
          rw [hs3]
        · show e.page_faults + 1 = t.page_faults + 1
          rw [hs4]
        · show e.next_free_frame + 1 = _
          rw [Task.fault_assigned_length, hs6]
          push_cast
          rfl
    · have het : Task.translate bs t a
          = some (t.physical_memory (x * Task.FRAME_SIZE + Task.get_offset a), t) := by
        rw [Task.translate_miss bs t a hcl, Task.check_page_table_mapped bs t _ x hp.1 hx hx1]
      rw [he2] at het
      simp only [Option.some.injEq, Prod.mk.injEq] at het
      refine ⟨e, ?_, hE, hEM, ?_⟩
      · rw [ex_translate_miss bs e a (by rw [hs2]; exact hcl), get_page_number_eq_task,
          ex_check_page_table_mapped bs e _ x hp.1 (by rw [hs1]; exact hx) hx1]
        show some (e.physical_memory _, _) = _
        rw [get_offset_eq_task, hEM _ x (by rw [hs1]; exact hx) hx1 _ ho.1 ho.2]
      · rw [het.2]
        exact ⟨hs1, hs2, hs3, hs4, hs5, hs6⟩

theorem paired_run {bs : BackingStore} (hb : Task.Readable bs) (reqs : List Int) :
    ∀ (t : Task.VMState) (e : VMState) (S : Finset Int), Task.Inv t → Task.MemInv bs t →
      Inv e → MemInv bs e → Sim t e →
      (∀ q : Nat, q < 256 → (t.page_table[q]? = some (-1) ↔ (q : Int) ∉ S)) →
      t.page_faults = (S.card : Int) → t.assigned.length = S.card →
      (S ∪ (reqs.map Task.get_page_number).toFinset).card ≤ 64 →
      ∃ outs t1 e1, Task.run bs t reqs = some (outs, t1) ∧ run bs e reqs = some (outs, e1)
        ∧ Sim t1 e1 := by
  induction reqs with
  | nil =>
    intro t e S _ _ _ _ hsim _ _ _ _
    exact ⟨[], t, e, rfl, rfl, hsim⟩
  | cons a rest ih =>
    intro t e S hI hM hE hEM hsim hS hf ha hc
    have hunion : S ∪ ((a :: rest).map Task.get_page_number).toFinset
        = insert (Task.get_page_number a) S ∪ (rest.map Task.get_page_number).toFinset := by
      simp only [List.map_cons, List.toFinset_cons, Finset.union_insert, Finset.insert_union]
    rw [hunion] at hc
    have hc1 : (insert (Task.get_page_number a) S).card ≤ 64 :=
      le_trans (Finset.card_le_card Finset.subset_union_left) hc
    obtain ⟨v, t1, e1, h1, h2, hI1, hM1, hE1, hEM1, hsim1, hS1, hf1, ha1⟩ :=
      paired_step hb hI hM hE hEM hsim S hS hf ha a hc1
    obtain ⟨outs, t2, e2, h3, h4, hsim2⟩ := ih t1 e1 _ hI1 hM1 hE1 hEM1 hsim1 hS1 hf1 ha1 hc
    refine ⟨v :: outs, t2, e2, ?_, ?_, hsim2⟩
    · simp only [Task.run, h1, h3]
    · simp only [run, h2, h4]

/-- C19. The two variants agree below capacity: for every readable backing
store and every request sequence that touches at most 64 distinct page
numbers, the variant without replacement (256 frames) and the variant with
FIFO replacement (64 frames), each run from its initial state, are both
defined, print the same sequence of bytes and end with the same `page_faults`
and `tlb_hits`. -/
theorem variants_agree (bs : BackingStore) (hb : Task.Readable bs) (reqs : List Int)
    (hd : (reqs.map Task.get_page_number).dedup.length ≤ 64) :
    ∃ outs t e, Task.run bs Task.initial reqs = some (outs, t)
      ∧ run bs initial reqs = some (outs, e)
      ∧ t.page_faults = e.page_faults ∧ t.tlb_hits = e.tlb_hits := by
  have hcard : (reqs.map Task.get_page_number).toFinset.card
      = (reqs.map Task.get_page_number).dedup.length := List.card_toFinset _
  have hpt : ∀ q : Nat, q < 256 →
      (Task.initial.page_table[q]? = some (-1) ↔ (q : Int) ∉ (∅ : Finset Int)) := by
    intro q hq
    rw [Task.initial_page_table, List.getElem?_replicate, if_pos hq]
    simp
  obtain ⟨outs, t, e, h1, h2, hsim⟩ := paired_run hb reqs Task.initial initial ∅
    Task.inv_initial (Task.mem_inv_initial bs) ex_inv_initial (ex_mem_inv_initial bs) sim_initial
    hpt rfl rfl (by rw [Finset.empty_union, hcard]; exact hd)
  exact ⟨outs, t, e, h1, h2, hsim.2.2.2.1.symm, hsim.2.2.2.2.1.symm⟩

set_option maxRecDepth 1000000 in
theorem variants_agree_witness :
    Task.Readable Task.demo_store
      ∧ ((Task.sweep 64 ++ [7, 300, 16000, 300]).map Task.get_page_number).dedup.length ≤ 64
      ∧ ∃ outs t e,
          Task.run Task.demo_store Task.initial (Task.sweep 64 ++ [7, 300, 16000, 300])
            = some (outs, t)
          ∧ run Task.demo_store initial (Task.sweep 64 ++ [7, 300, 16000, 300]) = some (outs, e)
          ∧ t.page_faults = e.page_faults ∧ t.tlb_hits = e.tlb_hits :=
  ⟨Task.demo_readable, by decide,
    variants_agree Task.demo_store Task.demo_readable _ (by decide)⟩

end Example
